import Mathlib

/-!
# Verification of the neuro_collection neurite mesh-generation pipeline

Shallow embedding of the geometry-generation logic of
`src/test/test_neurite_proj.cpp` (tree decomposition, cubic-spline fitting,
arc-length resampling, branch geometry) over exact real arithmetic.

Modelling conventions:
* C++ `number` (double) is modelled as `ℝ`; `std::sqrt` as `Real.sqrt`,
  `acos` as `Real.arccos`, the `PI` constant as `Real.pi`.
* `std::vector` indexing is modelled with `List.getD` (theorems carry
  in-bounds hypotheses where that matters).
* `UG_COND_THROW` is modelled by `Except String`; a C++ `while` loop whose
  termination is not structural is modelled with an explicit fuel
  parameter chosen large enough for every in-contract run.
* The external `GaussLegendre gl(5)` quadrature object (host-framework
  code, not part of this repository) is modelled as an explicit list of
  (point, weight) pairs passed as a parameter `rule`.
-/

open scoped Classical

noncomputable section

namespace NeuroCollection

/-- 3D vector, the embedding of ug4's `vector3`. -/
structure Vec3 where
  x : ℝ
  y : ℝ
  z : ℝ

/-- `VecProd` (scalar product) of ug4. -/
def vecProd (a b : Vec3) : ℝ := a.x * b.x + a.y * b.y + a.z * b.z

/-- `VecNormSquared` of ug4. -/
def vecNormSquared (a : Vec3) : ℝ := a.x * a.x + a.y * a.y + a.z * a.z

/-- `VecSubtract(out, a, b)` of ug4: componentwise `a - b`. -/
def vecSub (a b : Vec3) : Vec3 := ⟨a.x - b.x, a.y - b.y, a.z - b.z⟩

/-- `VecScale(out, v, s)` of ug4. -/
def vecScale (v : Vec3) (s : ℝ) : Vec3 := ⟨s * v.x, s * v.y, s * v.z⟩

/-- `VecDistance(a, b)` of ug4: Euclidean distance. -/
def vecDistance (a b : Vec3) : ℝ := Real.sqrt (vecNormSquared (vecSub a b))

/-- `VecNormalize(out, v)` of ug4: scale `v` by the inverse of its norm. -/
def vecNormalize (v : Vec3) : Vec3 :=
  vecScale v (1 / Real.sqrt (vecNormSquared v))

/-- One spline dimension's coefficient quadruple
(`splineParamsX`/`Y`/`Z`/`R` entries 0..3 of `NeuriteProjector::Section`). -/
structure P4 where
  p0 : ℝ
  p1 : ℝ
  p2 : ℝ
  p3 : ℝ

/-- The embedding of `NeuriteProjector::Section`: end parameter plus four
cubic monomial-coefficient quadruples (in the monomial `endParam - t`). -/
structure Section' where
  endParam : ℝ
  sX : P4
  sY : P4
  sZ : P4
  sR : P4

/-- Horner evaluation of a cubic at monomial argument `m`, as written at
`test_neurite_proj.cpp:3075-3077` (`p = ((s0*m + s1)*m + s2)*m + s3`). -/
def polyAt (s : P4) (m : ℝ) : ℝ := ((s.p0 * m + s.p1) * m + s.p2) * m + s.p3

/-- Velocity (derivative w.r.t. `t`) of a cubic at monomial argument `m`, as
written at `test_neurite_proj.cpp:988-989` (`v = -3*s0*m - 2*s1; v = v*m - s2`). -/
def velAt (s : P4) (m : ℝ) : ℝ := (-3 * s.p0 * m - 2 * s.p1) * m - s.p2

/-- The 3D velocity of a section at monomial argument `m`. -/
def velVec (sec : Section') (m : ℝ) : Vec3 :=
  ⟨velAt sec.sX m, velAt sec.sY m, velAt sec.sZ m⟩

/-- The 3D position of a section at monomial argument `m`. -/
def posVec (sec : Section') (m : ℝ) : Vec3 :=
  ⟨polyAt sec.sX m, polyAt sec.sY m, polyAt sec.sZ m⟩

/-! ## Branch geometry solver

Embedding of the per-branch block of `create_neurite`
(`test_neurite_proj.cpp:2867-2930`) and of `create_neurite_with_er`
(`test_neurite_proj.cpp:3486-3549`).  The two blocks compute the offset and
half-length by identical code; they differ only in how the reserved
interval `[bp_start, bp_end]` is assembled from them. -/

/-- The all-zero section (used as the `getD` default for section lists). -/
def sec0 : Section' := ⟨0, ⟨0,0,0,0⟩, ⟨0,0,0,0⟩, ⟨0,0,0,0⟩, ⟨0,0,0,0⟩⟩

/-- The section search of `test_neurite_proj.cpp:2876-2882`: starting at
`curSec`, find the first section index whose `endParam` satisfies
`bpTPos - endParam < 1e-6 * bpTPos`.  Returns `none` when the search runs
off the end (the source then throws). -/
def findBrSec (secs : List Section') (curSec : ℕ) (bpTPos : ℝ) : Option ℕ :=
  go curSec (secs.drop curSec)
where
  /-- linear scan from `curSec` upward -/
  go : ℕ → List Section' → Option ℕ
    | _, [] => none
    | i, sec :: rest =>
      if bpTPos - sec.endParam < 1e-6 * bpTPos then some i else go (i + 1) rest

/-- Branch initial direction (`test_neurite_proj.cpp:2888-2907`): the child
neurite's first section's velocity evaluated at monomial `te = endParam`
(i.e. at the child's `t = 0`), then normalized. -/
def branchDirOf (childSec : Section') : Vec3 :=
  vecNormalize (velVec childSec childSec.endParam)

/-- Parent direction at the branch (`test_neurite_proj.cpp:2909-2915`): the
constant Horner tail `(-s2)` of the parent section containing the branch,
i.e. the velocity at monomial `0`, scaled to unit length. -/
def neuriteDirOf (sec : Section') : Vec3 :=
  vecScale (velVec sec 0) (1 / Real.sqrt (vecNormSquared (velVec sec 0)))

/-- The branch angle cosine `brScProd` (`test_neurite_proj.cpp:2918`): the
scalar product of the normalized parent tangent and the normalized child
initial tangent. -/
def brScProdOf (parentSec childSec : Section') : ℝ :=
  vecProd (neuriteDirOf parentSec) (branchDirOf childSec)

/-- Result of the per-branch geometry computation:
`surfBPoffset`, `branchOffset[br]` and `surfBPhalfLength`. -/
structure BranchGeom where
  surfBPoffset : ℝ
  branchOffset : ℝ
  surfBPhalfLength : ℝ

/-- The per-branch geometry block of `create_neurite`
(`test_neurite_proj.cpp:2867-2926`): find the section containing the
branching point, read the parent radius `bpRad = vR[nid][brSec+1]`, build
the two unit tangents, and produce
`surfBPoffset     = 0.5*sqrt(2) * bpRad * brScProd / sqrt(1 - brScProd^2)`,
`branchOffset     = 0.5*sqrt(2) * bpRad / sqrt(1 - brScProd^2)`,
`surfBPhalfLength = brRadSeg1 / sqrt(1 - brScProd^2)`,
where `brRadSeg1 = vR[brInd][0]` is the child's first support radius.
The only throw in the block is the failing section search. -/
def branchGeom (vRparent : List ℝ) (secs : List Section') (childSec : Section')
    (brRadSeg1 : ℝ) (bpTPos : ℝ) (curSec : ℕ) : Except String BranchGeom :=
  match findBrSec secs curSec bpTPos with
  | none => .error "Could not find section containing branching point."
  | some brSec =>
    let bpRad := vRparent.getD (brSec + 1) 0
    let sec := secs.getD brSec sec0
    let brScProd := vecProd (neuriteDirOf sec) (branchDirOf childSec)
    let sinAlphaInv := 1 / Real.sqrt (1 - brScProd * brScProd)
    .ok { surfBPoffset := 0.5 * Real.sqrt 2 * bpRad * brScProd * sinAlphaInv
          branchOffset := 0.5 * Real.sqrt 2 * bpRad * sinAlphaInv
          surfBPhalfLength := brRadSeg1 * sinAlphaInv }

/-- The per-branch geometry block of `create_neurite_with_er`
(`test_neurite_proj.cpp:3486-3545`); textually the same computation as the
block in `create_neurite`. -/
def branchGeomER (vRparent : List ℝ) (secs : List Section') (childSec : Section')
    (brRadSeg1 : ℝ) (bpTPos : ℝ) (curSec : ℕ) : Except String BranchGeom :=
  match findBrSec secs curSec bpTPos with
  | none => .error "Could not find section containing branching point."
  | some brSec =>
    let bpRad := vRparent.getD (brSec + 1) 0
    let sec := secs.getD brSec sec0
    let brScProd := vecProd (neuriteDirOf sec) (branchDirOf childSec)
    let sinAlphaInv := 1 / Real.sqrt (1 - brScProd * brScProd)
    .ok { surfBPoffset := 0.5 * Real.sqrt 2 * bpRad * brScProd * sinAlphaInv
          branchOffset := 0.5 * Real.sqrt 2 * bpRad * sinAlphaInv
          surfBPhalfLength := brRadSeg1 * sinAlphaInv }

/-- Reserved-interval update of the single-layer build path
(`test_neurite_proj.cpp:2929-2930`), starting from the initial values
`bp_start = 1.0`, `bp_end = 0.0`:
`bp_start = min(bp_start, t_bp + (offset - halfLength) / neurite_length)`,
`bp_end   = max(bp_end,   t_bp + (offset + halfLength) / neurite_length)`. -/
def bpIntervalOuter (bpTPos off hl neuriteLength : ℝ) : ℝ × ℝ :=
  (min 1 (bpTPos + (off - hl) / neuriteLength),
   max 0 (bpTPos + (off + hl) / neuriteLength))

/-- Reserved-interval update of the double-layer (ER) build path
(`test_neurite_proj.cpp:3548-3549`), starting from the same initial values;
the offset is not used:
`bp_start = min(bp_start, t_bp - halfLength / neurite_length)`,
`bp_end   = max(bp_end,   t_bp + halfLength / neurite_length)`. -/
def bpIntervalER (bpTPos _off hl neuriteLength : ℝ) : ℝ × ℝ :=
  (min 1 (bpTPos - hl / neuriteLength),
   max 0 (bpTPos + hl / neuriteLength))

/-- Offset formula as worded by the specification (§4.4): taking `r` for
"the radius at the child neurite's first support point",
`offset = (r/√2) · cosθ / √(1 - cos²θ)`. -/
def specOffsetFormula (r cosθ : ℝ) : ℝ :=
  r / Real.sqrt 2 * cosθ / Real.sqrt (1 - cosθ ^ 2)

/-- Half-length formula as worded by the specification (§4.4):
`halfLength = r / √(1 - cos²θ)`. -/
def specHalfLengthFormula (r cosθ : ℝ) : ℝ :=
  r / Real.sqrt (1 - cosθ ^ 2)

/-! ## Arc-length resampler -/

/-- Segment-count computation of `create_neurite`
(`test_neurite_proj.cpp:2942-2944`):
`nSeg = (size_t) floor(lengthOverRadius / (anisotropy*0.5*PI)); if (!nSeg) nSeg = 1;`. -/
def nSegOf (lengthOverRadius anisotropy : ℝ) : ℕ :=
  let n := (⌊lengthOverRadius / (anisotropy * 0.5 * Real.pi)⌋).toNat
  if n = 0 then 1 else n

/-- The count the specification's words ask for: the smallest integer
`≥ lengthOverRadius / (anisotropy·π/2)`, with a minimum of 1. -/
def specSegCount (lengthOverRadius anisotropy : ℝ) : ℕ :=
  max 1 (⌈lengthOverRadius / (anisotropy * 0.5 * Real.pi)⌉).toNat

/-- Per-section Gauss quadrature accumulation
(`test_neurite_proj.cpp:1057-1086`): for each rule point `(p, w)` evaluate
the integrand `‖vel(t)‖ / r(t)` at `t = endParam - (sec_tstart + dt*p)` and
accumulate `w * sqrt(VecNormSquared(vel)) / r`; throws when
`r*r <= VecNormSquared(vel) * 1e-12`. -/
def secIntegralOf (rule : List (ℝ × ℝ)) (sec : Section') (secTstart dt : ℝ) :
    Except String ℝ :=
  go rule 0
where
  /-- accumulate over the remaining rule points -/
  go : List (ℝ × ℝ) → ℝ → Except String ℝ
    | [], acc => .ok acc
    | (p, w) :: restRule, acc =>
      let t := sec.endParam - (secTstart + dt * p)
      let vel := velVec sec t
      let r := polyAt sec.sR t
      if r * r ≤ vecNormSquared vel * 1e-12 then
        .error "r too small"
      else go restRule (acc + w * Real.sqrt (vecNormSquared vel) / r)

/-- Loop of `calculate_length_over_radius` (`test_neurite_proj.cpp:972-1018`):
walk the sections, integrating `‖v‖/r` from `max(t_start, prevEnd)` to
`min(t_end, endParam)` on each, stopping once `t_end` is covered. -/
def lorLoop (rule : List (ℝ × ℝ)) (tEnd : ℝ) :
    List Section' → ℝ → ℝ → ℝ → Except String ℝ
  | [], _prevEnd, _tStart, integral => .ok integral
  | sec :: rest, prevEnd, tStart, integral =>
    let secTstart := max tStart prevEnd
    let secTend := min tEnd sec.endParam
    let dt := secTend - secTstart
    match secIntegralOf rule sec secTstart dt with
    | .error e => .error e
    | .ok secInt =>
      let integral' := integral + dt * secInt
      if secTend ≥ tEnd then .ok integral'
      else lorLoop rule tEnd rest sec.endParam secTend integral'

/-- `calculate_length_over_radius` (`test_neurite_proj.cpp:949-1021`),
including the initial section-iterator check (lines 963-970). -/
def calculate_length_over_radius (rule : List (ℝ × ℝ)) (tStart tEnd : ℝ)
    (secs : List Section') (startSec : ℕ) : Except String ℝ :=
  let prevEnd : ℝ := if 0 < startSec then (secs.getD (startSec - 1) sec0).endParam else 0
  let secTend := (secs.getD startSec sec0).endParam
  if secTend < tStart ∨ prevEnd > tStart then .error "Wrong section iterator"
  else lorLoop rule tEnd (secs.drop startSec) prevEnd tStart 0

/-- The inner `while` of `calculate_segment_axial_positions`
(`test_neurite_proj.cpp:1090-1095`): while the accumulated integral has
surpassed the next sub-target `(seg+1)*segLength`, write the linearly
interpolated position
`t_start + ((seg+1)*segLength - lastIntegral)/sec_integral` and advance
`seg`.  The C++ loop has no structural bound, so it carries an explicit
fuel parameter here; every run appearing in the theorems below terminates
before exhausting it. -/
def innerLoop (segLength tStartChunk integral lastIntegral secInt : ℝ) :
    ℕ → List ℝ → ℕ → List ℝ × ℕ
  | 0, out, seg => (out, seg)
  | fuel + 1, out, seg =>
    if ((seg : ℝ) + 1) * segLength ≤ integral then
      innerLoop segLength tStartChunk integral lastIntegral secInt fuel
        (out.set seg (tStartChunk + (((seg : ℝ) + 1) * segLength - lastIntegral) / secInt))
        (seg + 1)
    else (out, seg)

/-- Outer loop of `calculate_segment_axial_positions`
(`test_neurite_proj.cpp:1050-1101`): same section walk as `lorLoop`, and
after each section's accumulation the inner interpolation loop fires.
Returns the filled positions, the number of written segments and the final
accumulated integral. -/
def caspLoop (rule : List (ℝ × ℝ)) (tEnd segLength : ℝ) (nSeg : ℕ) :
    List Section' → ℝ → ℝ → ℝ → List ℝ → ℕ → Except String (List ℝ × ℕ × ℝ)
  | [], _prevEnd, _tStart, integral, out, seg => .ok (out, seg, integral)
  | sec :: rest, prevEnd, tStart, integral, out, seg =>
    let secTstart := max tStart prevEnd
    let secTend := min tEnd sec.endParam
    let dt := secTend - secTstart
    match secIntegralOf rule sec secTstart dt with
    | .error e => .error e
    | .ok secInt =>
      let integral' := integral + dt * secInt
      let os := innerLoop segLength tStart integral' (integral' - dt * secInt) secInt
        (nSeg + 1) out seg
      if secTend ≥ tEnd then .ok (os.1, os.2, integral')
      else caspLoop rule tEnd segLength nSeg rest sec.endParam secTend integral' os.1 os.2

/-- `calculate_segment_axial_positions` (`test_neurite_proj.cpp:1024-1111`)
on an output vector of size `nSeg`: the initial iterator check, the section
walk with interpolation, and the final rounding correction
(`if (seg+1 == nSeg && (nSeg*segLength - integral)/integral < 1e-6)
  segAxPosOut[nSeg-1] = t_end;`). -/
def calculate_segment_axial_positions (rule : List (ℝ × ℝ)) (nSeg : ℕ)
    (tStart tEnd : ℝ) (secs : List Section') (startSec : ℕ) (segLength : ℝ) :
    Except String (List ℝ) :=
  let prevEnd : ℝ := if 0 < startSec then (secs.getD (startSec - 1) sec0).endParam else 0
  let secTend := (secs.getD startSec sec0).endParam
  if secTend < tStart ∨ prevEnd > tStart then .error "Wrong section iterator"
  else
    match caspLoop rule tEnd segLength nSeg (secs.drop startSec) prevEnd tStart 0
        (List.replicate nSeg 0) 0 with
    | .error e => .error e
    | .ok (out, seg, integral) =>
      if seg + 1 = nSeg ∧ ((nSeg : ℝ) * segLength - integral) / integral < 1e-6 then
        .ok (out.set (nSeg - 1) tEnd)
      else .ok out

/-! ## Spline fitter

Embedding of `create_spline_data_for_neurites`
(`test_neurite_proj.cpp:788-944`). -/

/-- The zero vector. -/
def vec3zero : Vec3 := ⟨0, 0, 0⟩

/-- Sum of the first `i` chord lengths of the support polyline
(`test_neurite_proj.cpp:793-797`). -/
def partialChord (pos : List Vec3) (i : ℕ) : ℝ :=
  ((List.range i).map
    (fun k => vecDistance (pos.getD k vec3zero) (pos.getD (k + 1) vec3zero))).sum

/-- The normalized cumulative chord-length parameters `tSuppPos`
(`test_neurite_proj.cpp:790-800`): `tSuppPos[i] = (partial length)/total`
for `i < nVrt-1`, and `tSuppPos[nVrt-1] = 1.0`. -/
def tSuppPosOf (pos : List Vec3) : List ℝ :=
  let total := partialChord pos (pos.length - 1)
  (List.range pos.length).map
    (fun i => if i = pos.length - 1 then 1.0 else partialChord pos i / total)

/-- `dt[k] = tSuppPos[k] - tSuppPos[k-1]` (`test_neurite_proj.cpp:802-803`). -/
def dtOf (ts : List ℝ) (k : ℕ) : ℝ := ts.getD k 0 - ts.getD (k - 1) 0

/-- The moment matrix of the spline system (`test_neurite_proj.cpp:814-821`):
diagonal entries `2.0` for all rows including both boundary rows; interior
rows `1 ≤ i < n-1` additionally carry `dt[i+1]/h2` at `(i,i+1)` and
`dt[i]/h2` at `(i,i-1)` with `h2 = tSuppPos[i+1] - tSuppPos[i-1]`; every
other entry is zero (the freshly resized `DenseMatrix` is modelled as
zero-initialized). -/
def splineMat (ts : List ℝ) (n : ℕ) (i j : ℕ) : ℝ :=
  if i = j then 2
  else if 1 ≤ i ∧ i < n - 1 ∧ j = i + 1 then
    dtOf ts (i + 1) / (ts.getD (i + 1) 0 - ts.getD (i - 1) 0)
  else if 1 ≤ i ∧ i < n - 1 ∧ j = i - 1 then
    dtOf ts i / (ts.getD (i + 1) 0 - ts.getD (i - 1) 0)
  else 0

/-- The right-hand side of the spline system
(`test_neurite_proj.cpp:824-827`): assigned only for interior rows
`1 ≤ i < n-1`; the boundary entries are never assigned by the source, and
the freshly resized external `DenseVector` is modelled as zero-initialized,
so they are `0`. -/
def splineRhs (ts : List ℝ) (vals : List ℝ) (n : ℕ) (i : ℕ) : ℝ :=
  if 1 ≤ i ∧ i < n - 1 then
    6 / (ts.getD (i + 1) 0 - ts.getD (i - 1) 0) *
      ((vals.getD (i + 1) 0 - vals.getD i 0) / dtOf ts (i + 1)
        - (vals.getD i 0 - vals.getD (i - 1) 0) / dtOf ts i)
  else 0

/-- Matrix-vector product over indices `0..n-1` (the effect of the source's
`x = mat⁻¹ * rhs`: `x` is characterized as the solution of `mat * x = rhs`). -/
def matVec (A : ℕ → ℕ → ℝ) (n : ℕ) (x : ℕ → ℝ) (i : ℕ) : ℝ :=
  ∑ j ∈ Finset.range n, A i j * x j

/-- One dimension's coefficient quadruple of `Section[i]`
(`test_neurite_proj.cpp:886-889`), from the two adjacent moments
`xi = x[i]`, `xi1 = x[i+1]`, the interval `dti = dt[i+1]` and the two
adjacent support values `vi = v[i]`, `vi1 = v[i+1]`:
`param[0] = (x[i]-x[i+1]) / (6*dt)`, `param[1] = 0.5*x[i+1]`,
`param[2] = -(dt/6*(x[i]+2*x[i+1]) + (v[i+1]-v[i])/dt)`, `param[3] = v[i+1]`. -/
def makeP4 (xi xi1 dti vi vi1 : ℝ) : P4 :=
  ⟨(xi - xi1) / (6.0 * dti),
   0.5 * xi1,
   -(dti / 6.0 * (xi + 2.0 * xi1) + (vi1 - vi) / dti),
   vi1⟩

/-- `Section[i]` of one neurite (`test_neurite_proj.cpp:882-904`): end
parameter `tSuppPos[i+1]` and the four quadruples built by `makeP4` from
the moment vectors `x0,x1,x2,xr` and the support positions/radii. -/
def buildSection (ts : List ℝ) (pos : List Vec3) (r : List ℝ)
    (x0 x1 x2 xr : ℕ → ℝ) (i : ℕ) : Section' :=
  let dti := dtOf ts (i + 1)
  ⟨ts.getD (i + 1) 0,
   makeP4 (x0 i) (x0 (i + 1)) dti (pos.getD i vec3zero).x (pos.getD (i + 1) vec3zero).x,
   makeP4 (x1 i) (x1 (i + 1)) dti (pos.getD i vec3zero).y (pos.getD (i + 1) vec3zero).y,
   makeP4 (x2 i) (x2 (i + 1)) dti (pos.getD i vec3zero).z (pos.getD (i + 1) vec3zero).z,
   makeP4 (xr i) (xr (i + 1)) dti (r.getD i 0) (r.getD (i + 1) 0)⟩

/-- The section list of one neurite built by
`create_spline_data_for_neurites` (`test_neurite_proj.cpp:882-944`), taking
the already-solved moment vectors as inputs. -/
def create_spline_sections (pos : List Vec3) (r : List ℝ)
    (x0 x1 x2 xr : ℕ → ℝ) : List Section' :=
  (List.range (pos.length - 1)).map (buildSection (tSuppPosOf pos) pos r x0 x1 x2 xr)

/-- Spline evaluation at axial parameter `t`
(`test_neurite_proj.cpp:3070-3103`): position and radius by Horner
evaluation at the monomial `endParam - t`. -/
def evalPosRad (sec : Section') (t : ℝ) : Vec3 × ℝ :=
  (posVec sec (sec.endParam - t), polyAt sec.sR (sec.endParam - t))

/-! ## Morphology tree decomposition

Embedding of the depth-first neurite walk of
`convert_pointlist_to_neuritelist` (`test_neurite_proj.cpp:612-744`). -/

/-- SWC point type tag. -/
inductive SWCType where
  | soma
  | axon
  | dend
  | apic
  | undf
deriving DecidableEq

/-- The embedding of `SWCPoint`: type tag, coordinates, radius, and the
ordered list of connected point indices. -/
structure SWCPoint where
  type : SWCType
  coords : Vec3
  radius : ℝ
  conns : List ℕ

/-- Default `SWCPoint` (used as `getD` default). -/
def swc0 : SWCPoint := ⟨.undf, vec3zero, 0, []⟩

/-- The branch angle of child slot `i` at a branching point
(`test_neurite_proj.cpp:661-665`): `acos` of the scalar product of the
normalized direction towards `conns[i]` with the normalized incoming
(parent) direction. -/
def angleAt (points : List SWCPoint) (parentDir : Vec3) (pt : SWCPoint) (i : ℕ) : ℝ :=
  Real.arccos (vecProd
    (vecNormalize (vecSub (points.getD (pt.conns.getD i 0) swc0).coords pt.coords))
    parentDir)

/-- The scan of `test_neurite_proj.cpp:649-671` over the connection slots:
state `(parentToBeDiscarded, minAngleInd, minAngle)`, started at
`(0, 0, ∞)` (the C++ `infinity()` initial value is modelled as `⊤` in
`WithTop ℝ`).  A slot holding the parent records `parentToBeDiscarded`; any
other slot replaces the running minimum iff its angle is strictly smaller. -/
def selGo (pind : ℕ) (conns : List ℕ) (angle : ℕ → ℝ) :
    List ℕ → ℕ × ℕ × WithTop ℝ → ℕ × ℕ × WithTop ℝ
  | [], st => st
  | i :: restIdx, st =>
    if conns.getD i 0 = pind then
      selGo pind conns angle restIdx (i, st.2.1, st.2.2)
    else if ((angle i : ℝ) : WithTop ℝ) < st.2.2 then
      selGo pind conns angle restIdx (st.1, i, ((angle i : ℝ) : WithTop ℝ))
    else selGo pind conns angle restIdx st

/-- The normalized incoming direction at a branching point
(`test_neurite_proj.cpp:645-647`). -/
def parentDirOf (points : List SWCPoint) (pind ind : ℕ) : Vec3 :=
  vecNormalize (vecSub (points.getD ind swc0).coords (points.getD pind swc0).coords)

/-- The full minimal-angle selection at a branching point: runs `selGo`
over all slots `0..nConn-1` and returns
`(parentToBeDiscarded, minAngleInd)`. -/
def selectBranch (points : List SWCPoint) (pind ind : ℕ) : ℕ × ℕ :=
  let pt := points.getD ind swc0
  let r := selGo pind pt.conns (angleAt points (parentDirOf points pind ind) pt)
    (List.range pt.conns.length) (0, 0, ⊤)
  (r.1, r.2.1)

/-- Invariant of the minimal-angle scan after the first `k` slots: either no
valid (non-parent) slot was seen and the running minimum is still `∞`, or
the running minimum index is a valid slot below `k` attaining the least
angle among the first `k` valid slots, strictly least among those before
it. -/
def selInvariant (pind : ℕ) (conns : List ℕ) (angle : ℕ → ℝ) (k : ℕ)
    (st : ℕ × ℕ × WithTop ℝ) : Prop :=
  (st.2.2 = ⊤ ∧ ∀ i < k, conns.getD i 0 = pind)
  ∨ (conns.getD st.2.1 0 ≠ pind ∧ st.2.1 < k
      ∧ st.2.2 = ((angle st.2.1 : ℝ) : WithTop ℝ)
      ∧ (∀ i < k, conns.getD i 0 ≠ pind → angle st.2.1 ≤ angle i)
      ∧ (∀ i < st.2.1, conns.getD i 0 ≠ pind → angle st.2.1 < angle i))

/-- State of the depth-first decomposition loop
(`test_neurite_proj.cpp:608-744`); the stack's head is its top. -/
structure DecompState where
  vPos : List (List Vec3)
  vRad : List (List ℝ)
  vBPInfo : List (List (ℕ × List ℕ))
  vRootNeuriteInds : List ℕ
  curNeuriteInd : ℕ
  stack : List (ℕ × ℕ)
  helperMap : List (ℕ × ℕ × ℕ)
  ptProcessed : List Bool
  nProcessed : ℕ

/-- Update entry `i` of a list through `f` (C++ `v[i] = f(v[i])` on a
`std::vector`; an out-of-range write, UB in the source, is a no-op here). -/
def updAt {α : Type} (d : α) (l : List α) (i : ℕ) (f : α → α) : List α :=
  l.set i (f (l.getD i d))

/-- `std::map` assignment `m[k] = v`: insert or overwrite. -/
def mapPut (m : List (ℕ × ℕ × ℕ)) (k : ℕ) (v : ℕ × ℕ) : List (ℕ × ℕ × ℕ) :=
  (k, v) :: m.filter (fun e => e.1 ≠ k)

/-- `std::map::find`. -/
def mapFind (m : List (ℕ × ℕ × ℕ)) (k : ℕ) : Option (ℕ × ℕ) :=
  (m.find? (fun e => e.1 = k)).map (fun e => e.2)

/-- The branching-point block (`test_neurite_proj.cpp:642-701`), entered
when the popped point has more than two connections: select the
continuation child by minimal angle, record the branching point, resize the
out-vectors by `nConn - 2` new empty neurites, push every other child, then
push the continuation child (so it is the new stack top), and register the
`helperMap` entry (once per non-continuation child, always with the same
value). -/
def branchStep (points : List SWCPoint) (pind ind : ℕ) (rest : List (ℕ × ℕ))
    (st : DecompState) : DecompState :=
  let pt := points.getD ind swc0
  let nConn := pt.conns.length
  let sel := selectBranch points pind ind
  let ptd := sel.1
  let m := sel.2
  let bpFirst := (st.vPos.getD st.curNeuriteInd []).length - 1
  let newSize := st.vPos.length + nConn - 2
  let vPos' := st.vPos ++ List.replicate (newSize - st.vPos.length) []
  let vRad' := st.vRad ++ List.replicate (newSize - st.vRad.length) []
  let vBPInfo' := st.vBPInfo ++ List.replicate (newSize - st.vBPInfo.length) []
  let stack' := (List.range nConn).foldl
    (fun s i => if i = ptd ∨ i = m then s else (ind, pt.conns.getD i 0) :: s) rest
  let helperMap' := if (List.range nConn).all (fun i => i = ptd ∨ i = m) then st.helperMap
    else mapPut st.helperMap ind (st.curNeuriteInd, (st.vBPInfo.getD st.curNeuriteInd []).length)
  { st with
    vPos := vPos'
    vRad := vRad'
    vBPInfo := updAt [] vBPInfo' st.curNeuriteInd (fun l => l.concat (bpFirst, []))
    stack := (ind, pt.conns.getD m 0) :: stack'
    helperMap := helperMap' }

/-- The end-point block (`test_neurite_proj.cpp:705-733`), entered when the
popped point has exactly one connection: if the stack is non-empty the next
stack entry starts a new neurite; when its parent is a recorded branching
point, that parent's position/radius seed the new neurite and the new
neurite's id is appended to the branching point's child list, otherwise the
new neurite is a root neurite. -/
def endPointStep (points : List SWCPoint) (st : DecompState) : DecompState :=
  match st.stack with
  | [] => st
  | (nextParentID, _) :: _ =>
    let cur' := st.curNeuriteInd + 1
    match mapFind st.helperMap nextParentID with
    | some nb =>
      { st with
        curNeuriteInd := cur'
        vPos := updAt [] st.vPos cur'
          (fun l => l.concat (points.getD nextParentID swc0).coords)
        vRad := updAt [] st.vRad cur'
          (fun l => l.concat (points.getD nextParentID swc0).radius)
        vBPInfo := updAt [] st.vBPInfo nb.1
          (fun l => l.set nb.2 (let e := l.getD nb.2 (0, []); (e.1, e.2.concat cur'))) }
    | none =>
      { st with
        curNeuriteInd := cur'
        vRootNeuriteInds := st.vRootNeuriteInds.concat cur' }

/-- The depth-first neurite walk of `convert_pointlist_to_neuritelist`
(`test_neurite_proj.cpp:622-744`): pop `(pind, ind)`, mark it processed,
throw when the popped point is soma-typed
(`UG_COND_THROW(pt.type == SWC_SOMA, "Detected neuron with more than one soma.")`),
append its coordinates and radius to the current neurite, then dispatch on
the connection count (branching / end / normal point).  The C++ `while` has
no structural bound (its termination relies on the input being a tree), so
the recursion carries explicit fuel; exhausting it is reported as an error
distinct from every source throw. -/
def processLoop (points : List SWCPoint) : ℕ → DecompState → Except String DecompState
  | 0, st => match st.stack with
    | [] => .ok st
    | _ => .error "fuel exhausted"
  | fuel + 1, st =>
    match st.stack with
    | [] => .ok st
    | (pind, ind) :: rest =>
      let st₁ := { st with
        stack := rest
        ptProcessed := st.ptProcessed.set ind true
        nProcessed := st.nProcessed + 1 }
      let pt := points.getD ind swc0
      if pt.type = SWCType.soma then .error "Detected neuron with more than one soma."
      else
        let st₂ := { st₁ with
          vPos := updAt [] st₁.vPos st₁.curNeuriteInd (fun l => l.concat pt.coords)
          vRad := updAt [] st₁.vRad st₁.curNeuriteInd (fun l => l.concat pt.radius) }
        let nConn := pt.conns.length
        if 2 < nConn then
          processLoop points fuel (branchStep points pind ind rest st₂)
        else if nConn = 1 then
          processLoop points fuel (endPointStep points st₂)
        else
          processLoop points fuel
            { st₂ with
              stack := (List.range nConn).foldl
                (fun s i => if pt.conns.getD i 0 = pind then s
                  else (ind, pt.conns.getD i 0) :: s) rest }

/-! ## Concrete example data for witnesses and counterexamples -/

/-- Parent example section: unit-speed x-direction tangent, radius 1. -/
def exPSec : Section' := ⟨1, ⟨0, 0, -1, 0⟩, ⟨0, 0, 0, 0⟩, ⟨0, 0, 0, 0⟩, ⟨0, 0, 0, 1⟩⟩

/-- Child example section with initial tangent `(3,4,0)` (cosθ = 3/5 against
the parent example). -/
def exCSec : Section' := ⟨1, ⟨0, 0, -3, 0⟩, ⟨0, 0, -4, 0⟩, ⟨0, 0, 0, 0⟩, ⟨0, 0, 0, 1⟩⟩

/-- Child example section with initial tangent `(0,1,0)` (perpendicular). -/
def exCSecPerp : Section' := ⟨1, ⟨0, 0, 0, 0⟩, ⟨0, 0, -1, 0⟩, ⟨0, 0, 0, 0⟩, ⟨0, 0, 0, 1⟩⟩

/-- Child example section with initial tangent `(1,0,0)` (collinear). -/
def exCSecCol : Section' := ⟨1, ⟨0, 0, -1, 0⟩, ⟨0, 0, 0, 0⟩, ⟨0, 0, 0, 0⟩, ⟨0, 0, 0, 1⟩⟩

/-- Example morphology whose neurite walk runs into a second soma:
soma(0) — dend(1) — soma(2). -/
def exPts : List SWCPoint :=
  [⟨.soma, ⟨0, 0, 0⟩, 1, [1]⟩,
   ⟨.dend, ⟨1, 0, 0⟩, 1, [0, 2]⟩,
   ⟨.soma, ⟨2, 0, 0⟩, 1, [1]⟩]

/-- Walk state of `exPts` about to pop the second soma point. -/
def exState : DecompState :=
  ⟨[[]], [[]], [[]], [0], 0, [(1, 2)], [], [false, false, false], 0⟩

/-- Initial walk state of `exPts`: the root neurite starts at point 1,
reached from soma point 0. -/
def exState0 : DecompState :=
  ⟨[[]], [[]], [[]], [0], 0, [(0, 1)], [], [false, false, false], 0⟩

/-- Example morphology with a branching point at point 1: the child towards
point 2 continues straight (angle 0), the child towards point 3 departs at
90°. -/
def exPtsBranch : List SWCPoint :=
  [⟨.soma, ⟨0, 0, 0⟩, 1, [1]⟩,
   ⟨.dend, ⟨1, 0, 0⟩, 1, [0, 2, 3]⟩,
   ⟨.dend, ⟨2, 0, 0⟩, 1, [1]⟩,
   ⟨.dend, ⟨1, 1, 0⟩, 1, [1]⟩]

/-- Example morphology with an EXACT angle tie at the branching point: the
children towards points 2 and 3 both depart at 45° from the incoming
direction. -/
def exPtsTie : List SWCPoint :=
  [⟨.soma, ⟨0, 0, 0⟩, 1, [1]⟩,
   ⟨.dend, ⟨1, 0, 0⟩, 1, [0, 2, 3]⟩,
   ⟨.dend, ⟨2, 1, 0⟩, 1, [1]⟩,
   ⟨.dend, ⟨2, -1, 0⟩, 1, [1]⟩]

/-! ## Theorems -/

lemma sqrt25 : Real.sqrt 25 = 5 := by
  rw [show (25 : ℝ) = 5 ^ 2 by norm_num, Real.sqrt_sq (by norm_num : (0:ℝ) ≤ 5)]

lemma sqrt1625 : Real.sqrt (16 / 25) = 4 / 5 := by
  rw [show (16 / 25 : ℝ) = (4 / 5) ^ 2 by norm_num,
    Real.sqrt_sq (by norm_num : (0:ℝ) ≤ 4 / 5)]

lemma sqrt2_mul_self : Real.sqrt 2 * Real.sqrt 2 = 2 :=
  Real.mul_self_sqrt (by norm_num)

lemma sqrt2_ne : Real.sqrt 2 ≠ 0 := by positivity

lemma neuriteDir_exPSec : neuriteDirOf exPSec = ⟨1, 0, 0⟩ := by
  show vecScale (velVec exPSec 0) _ = _
  have hv : velVec exPSec 0 = ⟨1, 0, 0⟩ := by
    norm_num [velVec, velAt, exPSec]
  rw [hv]
  simp [vecScale, vecNormSquared]

lemma branchDir_exCSec : branchDirOf exCSec = ⟨3 / 5, 4 / 5, 0⟩ := by
  show vecNormalize (velVec exCSec exCSec.endParam) = _
  have hv : velVec exCSec exCSec.endParam = ⟨3, 4, 0⟩ := by
    norm_num [velVec, velAt, exCSec]
  rw [hv, vecNormalize]
  have hn : vecNormSquared ⟨3, 4, 0⟩ = 25 := by norm_num [vecNormSquared]
  rw [hn, sqrt25, vecScale]
  norm_num

lemma branchDir_exCSecPerp : branchDirOf exCSecPerp = ⟨0, 1, 0⟩ := by
  show vecNormalize (velVec exCSecPerp exCSecPerp.endParam) = _
  have hv : velVec exCSecPerp exCSecPerp.endParam = ⟨0, 1, 0⟩ := by
    norm_num [velVec, velAt, exCSecPerp]
  rw [hv, vecNormalize]
  have hn : vecNormSquared ⟨0, 1, 0⟩ = 1 := by norm_num [vecNormSquared]
  rw [hn, Real.sqrt_one, vecScale]
  norm_num

lemma branchDir_exCSecCol : branchDirOf exCSecCol = ⟨1, 0, 0⟩ := by
  show vecNormalize (velVec exCSecCol exCSecCol.endParam) = _
  have hv : velVec exCSecCol exCSecCol.endParam = ⟨1, 0, 0⟩ := by
    norm_num [velVec, velAt, exCSecCol]
  rw [hv, vecNormalize]
  have hn : vecNormSquared ⟨1, 0, 0⟩ = 1 := by norm_num [vecNormSquared]
  rw [hn, Real.sqrt_one, vecScale]
  norm_num

lemma brScProd_exCSec : brScProdOf exPSec exCSec = 3 / 5 := by
  rw [brScProdOf, neuriteDir_exPSec, branchDir_exCSec]
  norm_num [vecProd]

lemma brScProd_exCSecPerp : brScProdOf exPSec exCSecPerp = 0 := by
  rw [brScProdOf, neuriteDir_exPSec, branchDir_exCSecPerp]
  norm_num [vecProd]

lemma brScProd_exCSecCol : brScProdOf exPSec exCSecCol = 1 := by
  rw [brScProdOf, neuriteDir_exPSec, branchDir_exCSecCol]
  norm_num [vecProd]

lemma findBrSec_ex : findBrSec [exPSec] 0 1 = some 0 := by
  rw [findBrSec, List.drop_zero, findBrSec.go]
  norm_num [exPSec]

lemma branchGeom_exCSec :
    branchGeom [2, 2] [exPSec] exCSec 1 1 0
      = .ok ⟨3 / 4 * Real.sqrt 2, 5 / 4 * Real.sqrt 2, 5 / 4⟩ := by
  rw [branchGeom, findBrSec_ex]
  show Except.ok _ = _
  have h : vecProd (neuriteDirOf (([exPSec] : List Section').getD 0 sec0))
      (branchDirOf exCSec) = 3 / 5 := by
    simpa using brScProd_exCSec
  rw [h]
  rw [show (1 : ℝ) - 3 / 5 * (3 / 5) = 16 / 25 by norm_num, sqrt1625]
  simp only [Except.ok.injEq, BranchGeom.mk.injEq, List.getD_cons_zero, List.getD_cons_succ]
  norm_num
  constructor
  · ring
  · ring

lemma branchGeom_exCSecPerp :
    branchGeom [2, 2] [exPSec] exCSecPerp 1 1 0 = .ok ⟨0, Real.sqrt 2, 1⟩ := by
  rw [branchGeom, findBrSec_ex]
  show Except.ok _ = _
  have h : vecProd (neuriteDirOf (([exPSec] : List Section').getD 0 sec0))
      (branchDirOf exCSecPerp) = 0 := by
    simpa using brScProd_exCSecPerp
  rw [h]
  rw [show (1 : ℝ) - 0 * 0 = 1 by norm_num, Real.sqrt_one]
  simp only [Except.ok.injEq, BranchGeom.mk.injEq, List.getD_cons_zero, List.getD_cons_succ]
  norm_num
  ring

lemma branchGeom_exCSecCol :
    branchGeom [2, 2] [exPSec] exCSecCol 1 1 0 = .ok ⟨0, 0, 0⟩ := by
  rw [branchGeom, findBrSec_ex]
  show Except.ok _ = _
  have h : vecProd (neuriteDirOf (([exPSec] : List Section').getD 0 sec0))
      (branchDirOf exCSecCol) = 1 := by
    simpa using brScProd_exCSecCol
  rw [h]
  rw [show (1 : ℝ) - 1 * 1 = 0 by norm_num, Real.sqrt_zero]
  simp only [Except.ok.injEq, BranchGeom.mk.injEq, List.getD_cons_zero, List.getD_cons_succ]
  norm_num

/-- C1 (amended): for every branch whose section search succeeds, the
computed insertion offset equals `(r/√2)·cosθ/√(1-cos²θ)` with `r` the
PARENT neurite's radius at the support point terminating the branch section
(`bpRad = vR[nid][brSec+1]`) — not the child's first support radius, though
the two coincide for decomposition-produced inputs — and the computed
half-length equals `r_child/√(1-cos²θ)` with `r_child` the child's first
support radius; the double-layer build path computes the identical
offset/half-length triple. -/
theorem C1_branch_offset_and_halfLength
    (vR : List ℝ) (secs : List Section') (childSec : Section')
    (brRadSeg1 bpTPos : ℝ) (curSec brSec : ℕ) (g : BranchGeom)
    (hfind : findBrSec secs curSec bpTPos = some brSec)
    (hok : branchGeom vR secs childSec brRadSeg1 bpTPos curSec = .ok g) :
    g.surfBPoffset
        = specOffsetFormula (vR.getD (brSec + 1) 0)
            (brScProdOf (secs.getD brSec sec0) childSec)
      ∧ g.surfBPhalfLength
          = specHalfLengthFormula brRadSeg1 (brScProdOf (secs.getD brSec sec0) childSec)
      ∧ branchGeomER vR secs childSec brRadSeg1 bpTPos curSec = .ok g := by
  rw [branchGeom, hfind] at hok
  set r := vR.getD (brSec + 1) 0 with hr
  set c := brScProdOf (secs.getD brSec sec0) childSec with hc
  have hgg : BranchGeom.mk
      (0.5 * Real.sqrt 2 * r * c * (1 / Real.sqrt (1 - c * c)))
      (0.5 * Real.sqrt 2 * r * (1 / Real.sqrt (1 - c * c)))
      (brRadSeg1 * (1 / Real.sqrt (1 - c * c))) = g := Except.ok.inj hok
  have key : (0.5 * Real.sqrt 2 * r * c : ℝ) = r / Real.sqrt 2 * c := by
    rw [div_mul_eq_mul_div, eq_div_iff sqrt2_ne]
    linear_combination (0.5 * r * c) * sqrt2_mul_self
  refine ⟨?_, ?_, ?_⟩
  · rw [← hgg]
    show 0.5 * Real.sqrt 2 * r * c * (1 / Real.sqrt (1 - c * c)) = specOffsetFormula r c
    rw [specOffsetFormula, mul_one_div, show (1 - c * c : ℝ) = 1 - c ^ 2 by ring, key]
  · rw [← hgg]
    show brRadSeg1 * (1 / Real.sqrt (1 - c * c)) = specHalfLengthFormula brRadSeg1 c
    rw [specHalfLengthFormula, mul_one_div, show (1 - c * c : ℝ) = 1 - c ^ 2 by ring]
  · rw [branchGeomER, hfind]
    exact hok

/-- Witness for C1 at a concrete branch (cosθ = 3/5, parent radius 2 at the
branch, child first radius 1). -/
theorem C1_witness :
    findBrSec [exPSec] 0 1 = some 0
  ∧ branchGeom [2, 2] [exPSec] exCSec 1 1 0
      = .ok ⟨3 / 4 * Real.sqrt 2, 5 / 4 * Real.sqrt 2, 5 / 4⟩
  ∧ (BranchGeom.mk (3 / 4 * Real.sqrt 2) (5 / 4 * Real.sqrt 2) (5 / 4)).surfBPoffset
      = specOffsetFormula (([2, 2] : List ℝ).getD (0 + 1) 0)
          (brScProdOf (([exPSec] : List Section').getD 0 sec0) exCSec) :=
  ⟨findBrSec_ex, branchGeom_exCSec,
    (C1_branch_offset_and_halfLength [2, 2] [exPSec] exCSec 1 1 0 0 _
      findBrSec_ex branchGeom_exCSec).1⟩

/-- Counterexample to C1 as stated: with parent radius 2 at the branch and
child first radius 1, the computed offset is `(3/4)·√2`, while the claim's
formula `(r_child/√2)·cosθ/√(1-cos²θ)` gives `(3/8)·√2`. -/
theorem C1_counterexample :
    branchGeom [2, 2] [exPSec] exCSec 1 1 0
      = .ok ⟨3 / 4 * Real.sqrt 2, 5 / 4 * Real.sqrt 2, 5 / 4⟩
  ∧ specOffsetFormula 1 (brScProdOf (([exPSec] : List Section').getD 0 sec0) exCSec)
      = 3 / 8 * Real.sqrt 2
  ∧ (3 / 4 * Real.sqrt 2 : ℝ) ≠ 3 / 8 * Real.sqrt 2 := by
  refine ⟨branchGeom_exCSec, ?_, ?_⟩
  · have h : brScProdOf (([exPSec] : List Section').getD 0 sec0) exCSec = 3 / 5 := by
      simpa using brScProd_exCSec
    rw [h, specOffsetFormula]
    rw [show (1 : ℝ) - (3 / 5) ^ 2 = 16 / 25 by norm_num, sqrt1625]
    rw [div_eq_iff (by norm_num : (4 / 5 : ℝ) ≠ 0)]
    rw [div_mul_eq_mul_div, div_eq_iff sqrt2_ne]
    linear_combination (-(3 : ℝ) / 10) * sqrt2_mul_self
  · intro h
    have h0 : (3 / 4 - 3 / 8 : ℝ) * Real.sqrt 2 = 0 := by linarith
    rcases mul_eq_zero.mp h0 with h' | h'
    · norm_num at h'
    · exact sqrt2_ne h'

/-- C3: for a single-child branching point (the only supported fan-out),
the single-layer build path reserves exactly
`[t_bp + (offset - halfLength)/L, t_bp + (offset + halfLength)/L]` on the
parent, while the double-layer build path, fed the same branch data,
reserves `[t_bp - halfLength/L, t_bp + halfLength/L]`; whenever the offset
is nonzero the two intervals differ.  Each build path's interval formula is
the fixed one shown here. -/
theorem C3_reserved_interval
    (vR : List ℝ) (secs : List Section') (childSec : Section')
    (brRadSeg1 bpTPos L : ℝ) (curSec : ℕ) (g : BranchGeom)
    (hok : branchGeom vR secs childSec brRadSeg1 bpTPos curSec = .ok g)
    (h1 : bpTPos + (g.surfBPoffset - g.surfBPhalfLength) / L ≤ 1)
    (h2 : 0 ≤ bpTPos + (g.surfBPoffset + g.surfBPhalfLength) / L)
    (h3 : bpTPos - g.surfBPhalfLength / L ≤ 1)
    (hL : 0 < L) (hoff : g.surfBPoffset ≠ 0) :
    bpIntervalOuter bpTPos g.surfBPoffset g.surfBPhalfLength L
        = (bpTPos + (g.surfBPoffset - g.surfBPhalfLength) / L,
           bpTPos + (g.surfBPoffset + g.surfBPhalfLength) / L)
      ∧ bpIntervalOuter bpTPos g.surfBPoffset g.surfBPhalfLength L
          ≠ bpIntervalER bpTPos g.surfBPoffset g.surfBPhalfLength L := by
  constructor
  · rw [bpIntervalOuter, min_eq_right h1, max_eq_right h2]
  · intro hEq
    rw [bpIntervalOuter, bpIntervalER] at hEq
    have hfst := congrArg Prod.fst hEq
    simp only at hfst
    rw [min_eq_right h1, min_eq_right h3] at hfst
    have hz : g.surfBPoffset / L = 0 := by
      have hsub : (g.surfBPoffset - g.surfBPhalfLength) / L
          = g.surfBPoffset / L - g.surfBPhalfLength / L := by ring
      rw [hsub] at hfst
      linarith
    rcases div_eq_zero_iff.mp hz with h' | h'
    · exact hoff h'
    · exact absurd h' (ne_of_gt hL)

/-- Witness for C3 at the concrete branch of `C1_witness`
(`t_bp = 1`, neurite length 10). -/
theorem C3_witness :
    (3 / 4 * Real.sqrt 2 : ℝ) ≠ 0
  ∧ bpIntervalOuter 1 (3 / 4 * Real.sqrt 2) (5 / 4) 10
      ≠ bpIntervalER 1 (3 / 4 * Real.sqrt 2) (5 / 4) 10 := by
  have hs2 : Real.sqrt 2 < 3 / 2 := by
    rw [show (3 / 2 : ℝ) = Real.sqrt ((3 / 2) ^ 2) by
      rw [Real.sqrt_sq (by norm_num : (0:ℝ) ≤ 3 / 2)]]
    exact Real.sqrt_lt_sqrt (by norm_num) (by norm_num)
  have hs0 : (0 : ℝ) < Real.sqrt 2 := by positivity
  refine ⟨by positivity, ?_⟩
  exact (C3_reserved_interval [2, 2] [exPSec] exCSec 1 1 10 0 _
    branchGeom_exCSec
    (by show (1 : ℝ) + (3 / 4 * Real.sqrt 2 - 5 / 4) / 10 ≤ 1; nlinarith)
    (by show (0 : ℝ) ≤ 1 + (3 / 4 * Real.sqrt 2 + 5 / 4) / 10; nlinarith)
    (by show (1 : ℝ) - 5 / 4 / 10 ≤ 1; norm_num)
    (by norm_num) (by positivity)).2

/-- C7: when the branch is perpendicular to the parent (cosθ = 0), the
computed offset is exactly 0 and the computed half-length is exactly the
child's first support radius. -/
theorem C7_perpendicular_branch
    (vR : List ℝ) (secs : List Section') (childSec : Section')
    (brRadSeg1 bpTPos : ℝ) (curSec brSec : ℕ) (g : BranchGeom)
    (hfind : findBrSec secs curSec bpTPos = some brSec)
    (hperp : brScProdOf (secs.getD brSec sec0) childSec = 0)
    (hok : branchGeom vR secs childSec brRadSeg1 bpTPos curSec = .ok g) :
    g.surfBPoffset = 0 ∧ g.surfBPhalfLength = brRadSeg1 := by
  rw [branchGeom, hfind] at hok
  set c := brScProdOf (secs.getD brSec sec0) childSec with hc
  have hgg : BranchGeom.mk
      (0.5 * Real.sqrt 2 * (vR.getD (brSec + 1) 0) * c * (1 / Real.sqrt (1 - c * c)))
      (0.5 * Real.sqrt 2 * (vR.getD (brSec + 1) 0) * (1 / Real.sqrt (1 - c * c)))
      (brRadSeg1 * (1 / Real.sqrt (1 - c * c))) = g := Except.ok.inj hok
  rw [hperp] at hgg
  rw [← hgg]
  norm_num

/-- Witness for C7 at a concrete perpendicular branch. -/
theorem C7_witness :
    brScProdOf (([exPSec] : List Section').getD 0 sec0) exCSecPerp = 0
  ∧ branchGeom [2, 2] [exPSec] exCSecPerp 1 1 0 = .ok ⟨0, Real.sqrt 2, 1⟩
  ∧ (BranchGeom.mk 0 (Real.sqrt 2) 1).surfBPoffset = 0
  ∧ (BranchGeom.mk 0 (Real.sqrt 2) 1).surfBPhalfLength = 1 := by
  have hperp : brScProdOf (([exPSec] : List Section').getD 0 sec0) exCSecPerp = 0 := by
    simpa using brScProd_exCSecPerp
  have h := C7_perpendicular_branch [2, 2] [exPSec] exCSecPerp 1 1 0 0 _
    findBrSec_ex hperp branchGeom_exCSecPerp
  exact ⟨hperp, branchGeom_exCSecPerp, h.1, h.2⟩

/-- C8 (amended): no degeneracy check exists in the branch-geometry block:
for a branch collinear with the parent (cosθ = 1) the computation completes
without raising any error (the only throw in the block is the failing
section search); the division by `√(1-cos²θ) = 0` proceeds unguarded, which
in the source's IEEE arithmetic propagates non-finite values. -/
theorem C8_no_degenerate_angle_error
    (vR : List ℝ) (secs : List Section') (childSec : Section')
    (brRadSeg1 bpTPos : ℝ) (curSec brSec : ℕ)
    (hfind : findBrSec secs curSec bpTPos = some brSec)
    (hcol : brScProdOf (secs.getD brSec sec0) childSec = 1) :
    ∃ g, branchGeom vR secs childSec brRadSeg1 bpTPos curSec = .ok g := by
  rw [branchGeom, hfind]
  exact ⟨_, rfl⟩

/-- Counterexample to C8 as stated: at a concrete collinear branch
(cosθ = 1) the computation returns a value, not an error; no
degenerate-branch-angle error exists to be raised.  (The `⟨0,0,0⟩` payload
reflects Lean's total `x/0 = 0`; the source's doubles produce non-finite
values here — the refutable content is the absence of any raised error.) -/
theorem C8_counterexample :
    brScProdOf (([exPSec] : List Section').getD 0 sec0) exCSecCol = 1
  ∧ branchGeom [2, 2] [exPSec] exCSecCol 1 1 0 = .ok ⟨0, 0, 0⟩ := by
  constructor
  · simpa using brScProd_exCSecCol
  · exact branchGeom_exCSecCol

/-- Witness for C8 (amended) at a concrete collinear branch. -/
theorem C8_witness :
    findBrSec [exPSec] 0 1 = some 0
  ∧ brScProdOf (([exPSec] : List Section').getD 0 sec0) exCSecCol = 1
  ∧ ∃ g, branchGeom [2, 2] [exPSec] exCSecCol 1 1 0 = .ok g := by
  have hcol : brScProdOf (([exPSec] : List Section').getD 0 sec0) exCSecCol = 1 := by
    simpa using brScProd_exCSecCol
  exact ⟨findBrSec_ex, hcol,
    C8_no_degenerate_angle_error [2, 2] [exPSec] exCSecCol 1 1 0 0 findBrSec_ex hcol⟩

/-- C2 (amended): the produced axial-sample count is the LARGEST integer
`≤ lengthOverRadius / (anisotropy·π/2)` — a floor, not the smallest integer
above — with a minimum of 1: when the ratio is below 1 the count is 1, and
otherwise `count ≤ ratio < count + 1`. -/
theorem C2_segment_count (L a : ℝ)
    (h0 : 0 ≤ L / (a * 0.5 * Real.pi)) :
    (nSegOf L a = 1 ∧ L / (a * 0.5 * Real.pi) < 1)
    ∨ ((nSegOf L a : ℝ) ≤ L / (a * 0.5 * Real.pi)
        ∧ L / (a * 0.5 * Real.pi) < (nSegOf L a : ℝ) + 1) := by
  set x := L / (a * 0.5 * Real.pi) with hx
  by_cases hlt : x < 1
  · left
    have hfl : ⌊x⌋ = 0 := Int.floor_eq_zero_iff.mpr ⟨h0, hlt⟩
    constructor
    · rw [nSegOf]
      simp [← hx, hfl]
    · exact hlt
  · right
    push_neg at hlt
    have hfl1 : 1 ≤ ⌊x⌋ := by
      have := Int.le_floor.mpr (by exact_mod_cast hlt : ((1 : ℤ) : ℝ) ≤ x)
      exact this
    have hne : ⌊x⌋.toNat ≠ 0 := by
      omega
    have hcast : ((⌊x⌋.toNat : ℤ) : ℝ) = ((⌊x⌋ : ℤ) : ℝ) := by
      rw [Int.toNat_of_nonneg (by omega)]
    have hval : nSegOf L a = ⌊x⌋.toNat := by
      rw [nSegOf]
      simp [← hx, hne]
    rw [hval]
    have hcast2 : ((⌊x⌋.toNat : ℕ) : ℝ) = ((⌊x⌋ : ℤ) : ℝ) := by
      rw [← hcast]
      push_cast
      ring
    constructor
    · rw [hcast2]
      exact Int.floor_le x
    · rw [hcast2]
      exact Int.lt_floor_add_one x

/-- Counterexample to C2 as stated: at `lengthOverRadius = 25/4` and
`anisotropy = 5/π` the ratio is `5/2`; the code produces 2 segments (the
floor), strictly below the ratio, while the claim's "smallest integer ≥
ratio" is 3. -/
theorem C2_counterexample :
    nSegOf (25 / 4) (5 / Real.pi) = 2
  ∧ specSegCount (25 / 4) (5 / Real.pi) = 3
  ∧ (nSegOf (25 / 4) (5 / Real.pi) : ℝ)
      < (25 / 4) / ((5 / Real.pi) * 0.5 * Real.pi) := by
  have hratio : (25 / 4 : ℝ) / ((5 / Real.pi) * 0.5 * Real.pi) = 5 / 2 := by
    rw [div_mul_eq_mul_div, div_mul_eq_mul_div, mul_div_assoc,
      div_self Real.pi_ne_zero]
    norm_num
  have hfl : ⌊(5 / 2 : ℝ)⌋ = 2 := by
    rw [Int.floor_eq_iff]
    norm_num
  have hcl : ⌈(5 / 2 : ℝ)⌉ = 3 := by
    rw [Int.ceil_eq_iff]
    norm_num
  refine ⟨?_, ?_, ?_⟩
  · rw [nSegOf]
    simp [hratio, hfl]
  · rw [specSegCount, hratio, hcl]
    rfl
  · rw [nSegOf]
    simp [hratio, hfl]
    norm_num

/-- Witness for C2 (amended) at ratio `5/2`. -/
theorem C2_witness :
    0 ≤ (25 / 4 : ℝ) / ((5 / Real.pi) * 0.5 * Real.pi)
  ∧ ((nSegOf (25 / 4) (5 / Real.pi) = 1
        ∧ (25 / 4 : ℝ) / ((5 / Real.pi) * 0.5 * Real.pi) < 1)
      ∨ ((nSegOf (25 / 4) (5 / Real.pi) : ℝ)
            ≤ (25 / 4) / ((5 / Real.pi) * 0.5 * Real.pi)
          ∧ (25 / 4 : ℝ) / ((5 / Real.pi) * 0.5 * Real.pi)
            < (nSegOf (25 / 4) (5 / Real.pi) : ℝ) + 1)) := by
  have h0 : 0 ≤ (25 / 4 : ℝ) / ((5 / Real.pi) * 0.5 * Real.pi) := by
    positivity
  exact ⟨h0, C2_segment_count (25 / 4) (5 / Real.pi) h0⟩

/-- C5 (amended): the boundary rows of the coded moment system (diagonal
entry `2.0`, no off-diagonal entries, never-assigned right-hand side, i.e.
zero) impose `2·M = 0` at both ends: every solution of the system has ZERO
second derivative at both ends — the standard natural boundary condition IS
imposed; nothing fixes the end moments to the value 2.0 (that constant is
the diagonal matrix entry, not a moment value). -/
theorem C5_spline_boundary_moments
    (ts vals : List ℝ) (n : ℕ) (hn : 2 ≤ n) (x : ℕ → ℝ)
    (hsol : ∀ i < n, matVec (splineMat ts n) n x i = splineRhs ts vals n i) :
    x 0 = 0 ∧ x (n - 1) = 0 := by
  have hrow : ∀ i, i = 0 ∨ i = n - 1 → matVec (splineMat ts n) n x i = 2 * x i := by
    intro i hi
    rw [matVec]
    rw [Finset.sum_eq_single i]
    · have : splineMat ts n i i = 2 := by
        rw [splineMat]
        simp
      rw [this]
    · intro b _ hb
      have hzero : splineMat ts n i b = 0 := by
        rw [splineMat]
        rcases hi with h0 | h1
        · subst h0
          simp only [if_neg (Ne.symm hb)]
          rw [if_neg (by omega), if_neg (by omega)]
        · subst h1
          simp only [if_neg (Ne.symm hb)]
          rw [if_neg (by omega), if_neg (by omega)]
      rw [hzero, zero_mul]
    · intro habs
      exfalso
      rcases hi with h0 | h1
      · exact habs (by simp [h0]; omega)
      · exact habs (by simp [h1]; omega)
  have hrhs : ∀ i, i = 0 ∨ i = n - 1 → splineRhs ts vals n i = 0 := by
    intro i hi
    rw [splineRhs, if_neg]
    rcases hi with h0 | h1
    · omega
    · omega
  constructor
  · have h := hsol 0 (by omega)
    rw [hrow 0 (Or.inl rfl), hrhs 0 (Or.inl rfl)] at h
    linarith
  · have h := hsol (n - 1) (by omega)
    rw [hrow (n - 1) (Or.inr rfl), hrhs (n - 1) (Or.inr rfl)] at h
    linarith

/-- Counterexample to C5 as stated: the concrete 3-point fit
`ts = [0, 1/2, 1]`, `vals = [0, 1, 0]` satisfies the coded system with
moments `(0, -12, 0)`: the end second derivatives are 0, not 2.0 — the
natural condition holds. -/
theorem C5_counterexample :
    matVec (splineMat [0, 1/2, 1] 3) 3 (fun i => if i = 1 then -12 else 0) 0
        = splineRhs [0, 1/2, 1] [0, 1, 0] 3 0
  ∧ matVec (splineMat [0, 1/2, 1] 3) 3 (fun i => if i = 1 then -12 else 0) 1
        = splineRhs [0, 1/2, 1] [0, 1, 0] 3 1
  ∧ matVec (splineMat [0, 1/2, 1] 3) 3 (fun i => if i = 1 then -12 else 0) 2
        = splineRhs [0, 1/2, 1] [0, 1, 0] 3 2
  ∧ (fun i => if i = 1 then (-12 : ℝ) else 0) 0 = 0
  ∧ (fun i => if i = 1 then (-12 : ℝ) else 0) 0 ≠ 2
  ∧ (fun i => if i = 1 then (-12 : ℝ) else 0) 2 = 0
  ∧ (fun i => if i = 1 then (-12 : ℝ) else 0) 2 ≠ 2 := by
  refine ⟨?_, ?_, ?_, by norm_num, by norm_num, by norm_num, by norm_num⟩ <;>
    norm_num [matVec, splineMat, splineRhs, dtOf, Finset.sum_range_succ]

/-- Witness for C5 (amended) at the concrete 3-point system of
`C5_counterexample`. -/
theorem C5_witness :
    (2 ≤ 3)
  ∧ (fun i => if i = 1 then (-12 : ℝ) else 0) 0 = 0
  ∧ (fun i => if i = 1 then (-12 : ℝ) else 0) (3 - 1) = 0 := by
  have hsol : ∀ i < 3, matVec (splineMat [0, 1/2, 1] 3) 3
      (fun i => if i = 1 then (-12 : ℝ) else 0) i = splineRhs [0, 1/2, 1] [0, 1, 0] 3 i := by
    intro i hi
    interval_cases i <;>
      norm_num [matVec, splineMat, splineRhs, dtOf, Finset.sum_range_succ]
  have h := C5_spline_boundary_moments [0, 1/2, 1] [0, 1, 0] 3 (by norm_num)
    (fun i => if i = 1 then (-12 : ℝ) else 0) hsol
  exact ⟨by norm_num, h.1, h.2⟩

/-- C6: evaluating `Section[i]` at `t = Section[i].t_end` (monomial
argument 0) reproduces the input position and radius of support point
`i+1` exactly, for every moment vector the solver may have produced. -/
theorem C6_knot_interpolation
    (pos : List Vec3) (r : List ℝ) (x0 x1 x2 xr : ℕ → ℝ) (i : ℕ)
    (hi : i < pos.length - 1) :
    evalPosRad ((create_spline_sections pos r x0 x1 x2 xr).getD i sec0)
        ((create_spline_sections pos r x0 x1 x2 xr).getD i sec0).endParam
      = (pos.getD (i + 1) vec3zero, r.getD (i + 1) 0) := by
  have hlen : (create_spline_sections pos r x0 x1 x2 xr).length = pos.length - 1 := by
    rw [create_spline_sections, List.length_map, List.length_range]
  have hget : (create_spline_sections pos r x0 x1 x2 xr).getD i sec0
      = buildSection (tSuppPosOf pos) pos r x0 x1 x2 xr i := by
    rw [create_spline_sections, List.getD_eq_getElem?_getD, List.getElem?_map,
      List.getElem?_range hi]
    rfl
  rw [hget]
  rw [evalPosRad, sub_self]
  rw [buildSection]
  simp only [posVec, polyAt, makeP4]
  norm_num

/-- Witness for C6 at a concrete 3-point neurite with zero moments,
evaluated at the end of section 1. -/
theorem C6_witness :
    (1 < ([⟨0,0,0⟩, ⟨1,0,0⟩, ⟨3,1,0⟩] : List Vec3).length - 1)
  ∧ evalPosRad
      ((create_spline_sections [⟨0,0,0⟩, ⟨1,0,0⟩, ⟨3,1,0⟩] [1/20, 1/10, 1/5]
          (fun _ => 0) (fun _ => 0) (fun _ => 0) (fun _ => 0)).getD 1 sec0)
      ((create_spline_sections [⟨0,0,0⟩, ⟨1,0,0⟩, ⟨3,1,0⟩] [1/20, 1/10, 1/5]
          (fun _ => 0) (fun _ => 0) (fun _ => 0) (fun _ => 0)).getD 1 sec0).endParam
    = (⟨3, 1, 0⟩, 1/5) := by
  refine ⟨by norm_num, ?_⟩
  exact C6_knot_interpolation [⟨0,0,0⟩, ⟨1,0,0⟩, ⟨3,1,0⟩] [1/20, 1/10, 1/5]
    (fun _ => 0) (fun _ => 0) (fun _ => 0) (fun _ => 0) 1 (by norm_num)

lemma foldl_push_filter {β : Type} (f : ℕ → β) (p : ℕ → Prop) [DecidablePred p] :
    ∀ (L : List ℕ) (s : List β),
      L.foldl (fun acc i => if p i then acc else f i :: acc) s
        = ((L.filter (fun i => ¬ p i)).reverse.map f) ++ s := by
  intro L
  induction L with
  | nil => intro s; simp
  | cons i L ih =>
    intro s
    rw [List.foldl_cons]
    by_cases hp : p i
    · rw [if_pos hp, ih, List.filter_cons]
      simp [hp]
    · rw [if_neg hp, ih, List.filter_cons]
      simp [hp]

lemma selGo_inv (pind : ℕ) (conns : List ℕ) (angle : ℕ → ℝ) :
    ∀ (cnt k : ℕ) (st : ℕ × ℕ × WithTop ℝ),
      selInvariant pind conns angle k st →
      selInvariant pind conns angle (k + cnt)
        (selGo pind conns angle (List.range' k cnt) st) := by
  intro cnt
  induction cnt with
  | zero =>
    intro k st h
    simpa [selGo] using h
  | succ n ih =>
    intro k st h
    rw [List.range'_succ]
    simp only [selGo]
    have harith : k + (n + 1) = (k + 1) + n := by omega
    by_cases hp : conns.getD k 0 = pind
    · rw [if_pos hp, harith]
      apply ih
      dsimp only [selInvariant]
      rcases h with ⟨ht, hall⟩ | ⟨hv, hb, hval, hmin, hstrict⟩
      · left
        refine ⟨ht, ?_⟩
        intro i hi
        rcases Nat.lt_succ_iff_lt_or_eq.mp hi with h' | h'
        · exact hall i h'
        · subst h'
          exact hp
      · right
        refine ⟨hv, by omega, hval, ?_, hstrict⟩
        intro i hi hvi
        rcases Nat.lt_succ_iff_lt_or_eq.mp hi with h' | h'
        · exact hmin i h' hvi
        · subst h'
          exact absurd hp hvi
    · rw [if_neg hp]
      by_cases hlt : ((angle k : ℝ) : WithTop ℝ) < st.2.2
      · rw [if_pos hlt, harith]
        apply ih
        dsimp only [selInvariant]
        right
        refine ⟨hp, by omega, rfl, ?_, ?_⟩
        · intro i hi hvi
          rcases Nat.lt_succ_iff_lt_or_eq.mp hi with h' | h'
          · rcases h with ⟨ht, hall⟩ | ⟨hv, hb, hval, hmin, hstrict⟩
            · exact absurd (hall i h') hvi
            · have h1 : angle k < angle st.2.1 := by
                rw [hval] at hlt
                exact_mod_cast hlt
              exact le_of_lt (lt_of_lt_of_le h1 (hmin i h' hvi))
          · subst h'
            exact le_refl _
        · intro i hi hvi
          rcases h with ⟨ht, hall⟩ | ⟨hv, hb, hval, hmin, hstrict⟩
          · exact absurd (hall i hi) hvi
          · have h1 : angle k < angle st.2.1 := by
              rw [hval] at hlt
              exact_mod_cast hlt
            exact lt_of_lt_of_le h1 (hmin i (by omega) hvi)
      · rw [if_neg hlt, harith]
        apply ih
        dsimp only [selInvariant]
        rcases h with ⟨ht, hall⟩ | ⟨hv, hb, hval, hmin, hstrict⟩
        · rw [ht] at hlt
          exact absurd (WithTop.coe_lt_top (angle k)) hlt
        · right
          refine ⟨hv, by omega, hval, ?_, hstrict⟩
          intro i hi hvi
          rcases Nat.lt_succ_iff_lt_or_eq.mp hi with h' | h'
          · exact hmin i h' hvi
          · subst h'
            rw [hval] at hlt
            exact_mod_cast not_lt.mp hlt

lemma selectBranch_spec (points : List SWCPoint) (pind ind : ℕ)
    (hex : ∃ j, j < (points.getD ind swc0).conns.length
      ∧ (points.getD ind swc0).conns.getD j 0 ≠ pind) :
    ((points.getD ind swc0).conns.getD ((selectBranch points pind ind).2) 0 ≠ pind
      ∧ (selectBranch points pind ind).2 < (points.getD ind swc0).conns.length)
    ∧ (∀ k < (points.getD ind swc0).conns.length,
        (points.getD ind swc0).conns.getD k 0 ≠ pind →
        angleAt points (parentDirOf points pind ind) (points.getD ind swc0)
            ((selectBranch points pind ind).2)
          ≤ angleAt points (parentDirOf points pind ind) (points.getD ind swc0) k)
    ∧ (∀ k < (selectBranch points pind ind).2,
        (points.getD ind swc0).conns.getD k 0 ≠ pind →
        angleAt points (parentDirOf points pind ind) (points.getD ind swc0)
            ((selectBranch points pind ind).2)
          < angleAt points (parentDirOf points pind ind) (points.getD ind swc0) k) := by
  have h0 : selInvariant pind (points.getD ind swc0).conns
      (angleAt points (parentDirOf points pind ind) (points.getD ind swc0)) 0 (0, 0, ⊤) := by
    left
    exact ⟨rfl, by omega⟩
  have hinv := selGo_inv pind (points.getD ind swc0).conns
    (angleAt points (parentDirOf points pind ind) (points.getD ind swc0))
    (points.getD ind swc0).conns.length 0 (0, 0, ⊤) h0
  rw [← List.range_eq_range'] at hinv
  simp only [Nat.zero_add] at hinv
  have hsel : (selectBranch points pind ind).2
      = (selGo pind (points.getD ind swc0).conns
          (angleAt points (parentDirOf points pind ind) (points.getD ind swc0))
          (List.range (points.getD ind swc0).conns.length) (0, 0, ⊤)).2.1 := rfl
  rcases hinv with ⟨_, hall⟩ | ⟨hv, hb, _, hmin, hstrict⟩
  · obtain ⟨j, hj, hvj⟩ := hex
    exact absurd (hall j hj) hvj
  · rw [hsel]
    exact ⟨⟨hv, hb⟩, hmin, hstrict⟩

/-- C9: at a branching point the continuation child returned by the
minimal-angle scan is a valid (non-parent) slot attaining the minimal angle
to the incoming direction; among equal minimal angles the EARLIEST slot in
the connection list wins (every valid earlier slot has a strictly larger
angle), so the choice is deterministic at exact ties; and the branching
step pushes exactly that child last, making it the new stack top (it
continues the current neurite), with all other children pushed below it to
start new neurites. -/
theorem C9_min_angle_tiebreak
    (points : List SWCPoint) (pind ind : ℕ)
    (hex : ∃ j, j < (points.getD ind swc0).conns.length
      ∧ (points.getD ind swc0).conns.getD j 0 ≠ pind) :
    (((points.getD ind swc0).conns.getD ((selectBranch points pind ind).2) 0 ≠ pind
      ∧ (selectBranch points pind ind).2 < (points.getD ind swc0).conns.length)
    ∧ (∀ k < (points.getD ind swc0).conns.length,
        (points.getD ind swc0).conns.getD k 0 ≠ pind →
        angleAt points (parentDirOf points pind ind) (points.getD ind swc0)
            ((selectBranch points pind ind).2)
          ≤ angleAt points (parentDirOf points pind ind) (points.getD ind swc0) k)
    ∧ (∀ k < (selectBranch points pind ind).2,
        (points.getD ind swc0).conns.getD k 0 ≠ pind →
        angleAt points (parentDirOf points pind ind) (points.getD ind swc0)
            ((selectBranch points pind ind).2)
          < angleAt points (parentDirOf points pind ind) (points.getD ind swc0) k))
    ∧ ∀ (rest : List (ℕ × ℕ)) (st : DecompState),
        (branchStep points pind ind rest st).stack
          = (ind, (points.getD ind swc0).conns.getD ((selectBranch points pind ind).2) 0)
            :: (((List.range (points.getD ind swc0).conns.length).filter
                  (fun i => ¬(i = (selectBranch points pind ind).1
                    ∨ i = (selectBranch points pind ind).2))).reverse.map
                  (fun i => (ind, (points.getD ind swc0).conns.getD i 0)))
            ++ rest := by
  refine ⟨selectBranch_spec points pind ind hex, ?_⟩
  intro rest st
  simp only [branchStep]
  rw [foldl_push_filter]
  rfl

lemma parentDir_exPtsBranch : parentDirOf exPtsBranch 0 1 = ⟨1, 0, 0⟩ := by
  norm_num [parentDirOf, exPtsBranch, swc0, vec3zero, vecSub, vecNormalize, vecScale,
    vecNormSquared, Real.sqrt_one]

lemma angle_exPtsBranch_1 :
    angleAt exPtsBranch (parentDirOf exPtsBranch 0 1) (exPtsBranch.getD 1 swc0) 1 = 0 := by
  rw [parentDir_exPtsBranch]
  norm_num [angleAt, exPtsBranch, swc0, vec3zero, vecSub, vecNormalize, vecScale,
    vecNormSquared, vecProd, Real.sqrt_one, Real.arccos_one]

lemma angle_exPtsBranch_2 :
    angleAt exPtsBranch (parentDirOf exPtsBranch 0 1) (exPtsBranch.getD 1 swc0) 2
      = Real.pi / 2 := by
  rw [parentDir_exPtsBranch]
  norm_num [angleAt, exPtsBranch, swc0, vec3zero, vecSub, vecNormalize, vecScale,
    vecNormSquared, vecProd, Real.sqrt_one, Real.arccos_zero]

/-- Concrete run of the minimal-angle scan on `exPtsBranch`: the straight
child (slot 1, angle 0) is selected over the perpendicular child
(slot 2, angle π/2). -/
lemma selectBranch_exPtsBranch : selectBranch exPtsBranch 0 1 = (0, 1) := by
  have ha1' := angle_exPtsBranch_1
  have ha2' := angle_exPtsBranch_2
  rw [selectBranch]
  set ang := angleAt exPtsBranch (parentDirOf exPtsBranch 0 1) (exPtsBranch.getD 1 swc0)
    with hang
  have key : selGo 0 [0, 2, 3] ang [0, 1, 2] (0, 0, ⊤)
      = (0, 1, ((ang 1 : ℝ) : WithTop ℝ)) := by
    rw [selGo, if_pos (show ([0, 2, 3] : List ℕ).getD 0 0 = 0 from rfl)]
    rw [selGo, if_neg (show ¬(([0, 2, 3] : List ℕ).getD 1 0 = 0) by norm_num)]
    rw [if_pos (show ((ang 1 : ℝ) : WithTop ℝ) < (0, 0, ⊤).2.2 by
      rw [ha1']
      exact WithTop.coe_lt_top 0)]
    rw [selGo, if_neg (show ¬(([0, 2, 3] : List ℕ).getD 2 0 = 0) by norm_num)]
    rw [if_neg (show ¬ ((ang 2 : ℝ) : WithTop ℝ)
        < ((0 : ℕ), (1 : ℕ), ((ang 1 : ℝ) : WithTop ℝ)).2.2 by
      rw [ha1', ha2']
      intro hcon
      exact absurd (WithTop.coe_lt_coe.mp hcon) (not_lt.mpr (by positivity)))]
    rw [selGo]
  show ((selGo 0 [0, 2, 3] ang [0, 1, 2] (0, 0, ⊤)).1,
    (selGo 0 [0, 2, 3] ang [0, 1, 2] (0, 0, ⊤)).2.1) = (0, 1)
  rw [key]

lemma parentDir_exPtsTie : parentDirOf exPtsTie 0 1 = ⟨1, 0, 0⟩ := by
  norm_num [parentDirOf, exPtsTie, swc0, vec3zero, vecSub, vecNormalize, vecScale,
    vecNormSquared, Real.sqrt_one]

lemma angle_exPtsTie_eq :
    angleAt exPtsTie (parentDirOf exPtsTie 0 1) (exPtsTie.getD 1 swc0) 1
      = angleAt exPtsTie (parentDirOf exPtsTie 0 1) (exPtsTie.getD 1 swc0) 2 := by
  rw [parentDir_exPtsTie]
  norm_num [angleAt, exPtsTie, swc0, vec3zero, vecSub, vecNormalize, vecScale,
    vecNormSquared, vecProd]

/-- Concrete run of the minimal-angle scan on the EXACT-TIE example: the
two children both depart at 45°, and the earlier slot (slot 1) wins, as
the claim's determinism condition demands. -/
lemma selectBranch_exPtsTie : selectBranch exPtsTie 0 1 = (0, 1) := by
  have heq := angle_exPtsTie_eq
  rw [selectBranch]
  set ang := angleAt exPtsTie (parentDirOf exPtsTie 0 1) (exPtsTie.getD 1 swc0)
    with hang
  have key : selGo 0 [0, 2, 3] ang [0, 1, 2] (0, 0, ⊤)
      = (0, 1, ((ang 1 : ℝ) : WithTop ℝ)) := by
    rw [selGo, if_pos (show ([0, 2, 3] : List ℕ).getD 0 0 = 0 from rfl)]
    rw [selGo, if_neg (show ¬(([0, 2, 3] : List ℕ).getD 1 0 = 0) by norm_num)]
    rw [if_pos (show ((ang 1 : ℝ) : WithTop ℝ) < (0, 0, ⊤).2.2 from
      WithTop.coe_lt_top (ang 1))]
    rw [selGo, if_neg (show ¬(([0, 2, 3] : List ℕ).getD 2 0 = 0) by norm_num)]
    rw [if_neg (show ¬ ((ang 2 : ℝ) : WithTop ℝ)
        < ((0 : ℕ), (1 : ℕ), ((ang 1 : ℝ) : WithTop ℝ)).2.2 by
      rw [heq]
      intro hcon
      exact lt_irrefl _ (WithTop.coe_lt_coe.mp hcon))]
    rw [selGo]
  show ((selGo 0 [0, 2, 3] ang [0, 1, 2] (0, 0, ⊤)).1,
    (selGo 0 [0, 2, 3] ang [0, 1, 2] (0, 0, ⊤)).2.1) = (0, 1)
  rw [key]

/-- Witness for C9 at the concrete branching point of `exPtsBranch`; the
last two conjuncts exercise the selection concretely, including the
exact-tie morphology `exPtsTie` where the earliest equal-angle slot wins. -/
theorem C9_witness :
    (∃ j, j < (exPtsBranch.getD 1 swc0).conns.length
      ∧ (exPtsBranch.getD 1 swc0).conns.getD j 0 ≠ 0)
  ∧ ((exPtsBranch.getD 1 swc0).conns.getD ((selectBranch exPtsBranch 0 1).2) 0 ≠ 0
      ∧ (selectBranch exPtsBranch 0 1).2 < (exPtsBranch.getD 1 swc0).conns.length)
  ∧ (branchStep exPtsBranch 0 1 [] exState).stack
      = (1, (exPtsBranch.getD 1 swc0).conns.getD ((selectBranch exPtsBranch 0 1).2) 0)
        :: (((List.range (exPtsBranch.getD 1 swc0).conns.length).filter
              (fun i => ¬(i = (selectBranch exPtsBranch 0 1).1
                ∨ i = (selectBranch exPtsBranch 0 1).2))).reverse.map
              (fun i => (1, (exPtsBranch.getD 1 swc0).conns.getD i 0)))
        ++ []
  ∧ selectBranch exPtsBranch 0 1 = (0, 1)
  ∧ selectBranch exPtsTie 0 1 = (0, 1) := by
  have hex : ∃ j, j < (exPtsBranch.getD 1 swc0).conns.length
      ∧ (exPtsBranch.getD 1 swc0).conns.getD j 0 ≠ 0 := by
    refine ⟨1, ?_, ?_⟩ <;> norm_num [exPtsBranch]
  have h := C9_min_angle_tiebreak exPtsBranch 0 1 hex
  exact ⟨hex, h.1.1, h.2 [] exState, selectBranch_exPtsBranch, selectBranch_exPtsTie⟩

/-- C10: whenever the depth-first neurite walk pops a soma-typed point, the
decomposition loop aborts with the "more than one soma" error instead of
appending that point to the current neurite. -/
theorem C10_soma_aborts_walk
    (points : List SWCPoint) (fuel pind ind : ℕ) (rest : List (ℕ × ℕ))
    (st : DecompState)
    (hstack : st.stack = (pind, ind) :: rest)
    (hsoma : (points.getD ind swc0).type = SWCType.soma) :
    processLoop points (fuel + 1) st
      = .error "Detected neuron with more than one soma." := by
  simp only [processLoop, hstack]
  simp only [hsoma]
  simp [hsoma]

/-- Witness for C10: the walk of `exPts` (soma—dendrite—soma) errors when
it reaches the second soma, both from the state about to pop it and from
the initial root state two steps earlier. -/
theorem C10_witness :
    exState.stack = (1, 2) :: []
  ∧ (exPts.getD 2 swc0).type = SWCType.soma
  ∧ processLoop exPts 1 exState = .error "Detected neuron with more than one soma."
  ∧ processLoop exPts 2 exState0 = .error "Detected neuron with more than one soma." := by
  have h1 : exState.stack = (1, 2) :: [] := rfl
  have h2 : (exPts.getD 2 swc0).type = SWCType.soma := rfl
  refine ⟨h1, h2, C10_soma_aborts_walk exPts 0 1 2 [] exState h1 h2, ?_⟩
  rfl

lemma getD_set_self (l : List ℝ) (i : ℕ) (a : ℝ) (h : i < l.length) :
    (l.set i a).getD i 0 = a := by
  rw [List.getD_eq_getElem?_getD, List.getElem?_set_self (by simpa using h)]
  rfl

lemma innerLoop_stop (sl tc A lastI s : ℝ) (fuel : ℕ) (out : List ℝ) (seg : ℕ)
    (h : ¬ ((seg : ℝ) + 1) * sl ≤ A) :
    innerLoop sl tc A lastI s fuel out seg = (out, seg) := by
  cases fuel with
  | zero => rfl
  | succ n => rw [innerLoop, if_neg h]

lemma innerLoop_invariant (sl tc A lastI s : ℝ) :
    ∀ (fuel : ℕ) (out : List ℝ) (seg : ℕ),
      (innerLoop sl tc A lastI s fuel out seg).1.length = out.length
      ∧ seg ≤ (innerLoop sl tc A lastI s fuel out seg).2
      ∧ ((innerLoop sl tc A lastI s fuel out seg).2 = seg
          ∨ ((innerLoop sl tc A lastI s fuel out seg).2 : ℝ) * sl ≤ A) := by
  intro fuel
  induction fuel with
  | zero =>
    intro out seg
    exact ⟨rfl, le_refl _, Or.inl rfl⟩
  | succ n ih =>
    intro out seg
    rw [innerLoop]
    by_cases h : ((seg : ℝ) + 1) * sl ≤ A
    · rw [if_pos h]
      obtain ⟨hl, hle, hd⟩ :=
        ih (out.set seg (tc + (((seg : ℝ) + 1) * sl - lastI) / s)) (seg + 1)
      refine ⟨by rw [hl, List.length_set], by omega, ?_⟩
      rcases hd with hd | hd
      · right
        rw [hd]
        push_cast
        exact h
      · right
        exact hd
    · rw [if_neg h]
      exact ⟨rfl, le_refl _, Or.inl rfl⟩

lemma innerLoop_final (sl tc lastI s : ℝ) (nSeg : ℕ) (hsl : 0 < sl) :
    ∀ (fuel : ℕ) (out : List ℝ) (seg : ℕ),
      seg < nSeg → nSeg - seg < fuel → out.length = nSeg →
      (innerLoop sl tc ((nSeg : ℝ) * sl) lastI s fuel out seg).2 = nSeg
      ∧ (innerLoop sl tc ((nSeg : ℝ) * sl) lastI s fuel out seg).1.length = nSeg
      ∧ (innerLoop sl tc ((nSeg : ℝ) * sl) lastI s fuel out seg).1.getD (nSeg - 1) 0
          = tc + ((nSeg : ℝ) * sl - lastI) / s := by
  intro fuel
  induction fuel with
  | zero =>
    intro out seg h1 h2 h3
    omega
  | succ n ih =>
    intro out seg hseg hfuel hlen
    rw [innerLoop]
    have hcond : ((seg : ℝ) + 1) * sl ≤ (nSeg : ℝ) * sl := by
      apply mul_le_mul_of_nonneg_right _ (le_of_lt hsl)
      exact_mod_cast Nat.succ_le_of_lt hseg
    rw [if_pos hcond]
    by_cases hlast : seg + 1 = nSeg
    · have hstop : ¬ (((seg + 1 : ℕ) : ℝ) + 1) * sl ≤ (nSeg : ℝ) * sl := by
        rw [not_le]
        apply mul_lt_mul_of_pos_right _ hsl
        rw [hlast]
        norm_num
      rw [innerLoop_stop sl tc ((nSeg : ℝ) * sl) lastI s n _ (seg + 1) hstop]
      have hwrite : seg = nSeg - 1 := by omega
      refine ⟨hlast, by rw [List.length_set]; exact hlen, ?_⟩
      show (out.set seg (tc + (((seg : ℝ) + 1) * sl - lastI) / s)).getD (nSeg - 1) 0 = _
      rw [← hwrite, getD_set_self out seg _ (by omega)]
      have hc : ((seg : ℝ) + 1) = (nSeg : ℝ) := by
        exact_mod_cast congrArg (Nat.cast : ℕ → ℝ) hlast
      rw [hc]
    · exact ih (out.set seg (tc + (((seg : ℝ) + 1) * sl - lastI) / s)) (seg + 1)
        (by omega) (by omega) (by rw [List.length_set]; exact hlen)

lemma caspLoop_integral_lt (rule : List (ℝ × ℝ)) (tEnd sl : ℝ) (nSeg : ℕ) :
    ∀ (ss : List Section') (prevEnd tStart integral : ℝ) (out : List ℝ) (seg : ℕ)
      (out' : List ℝ) (seg' : ℕ) (I : ℝ),
      caspLoop rule tEnd sl nSeg ss prevEnd tStart integral out seg = .ok (out', seg', I) →
      tStart < tEnd → prevEnd ≤ tStart →
      tStart ≤ (ss.headD sec0).endParam →
      tEnd ≤ ((ss.getLast?).getD sec0).endParam →
      ss ≠ [] →
      List.Chain' (· < ·) (ss.map Section'.endParam) →
      (∀ sec ∈ ss, ∀ a b : ℝ, ∃ s, secIntegralOf rule sec a b = .ok s ∧ (0 < b → 0 < s)) →
      integral < I := by
  intro ss
  induction ss with
  | nil =>
    intro prevEnd tStart integral out seg out' seg' I hok hlt hpe hhead hlast hne hchain hquad
    exact absurd rfl hne
  | cons sec rest ih =>
    intro prevEnd tStart integral out seg out' seg' I hok hlt hpe hhead hlast hne hchain hquad
    simp only [caspLoop] at hok
    obtain ⟨s, hs, hspos⟩ := hquad sec (List.mem_cons_self _ _) (max tStart prevEnd)
      (min tEnd sec.endParam - max tStart prevEnd)
    rw [hs] at hok
    dsimp only at hok
    have hmax : max tStart prevEnd = tStart := max_eq_left hpe
    have hheadc : tStart ≤ sec.endParam := by simpa using hhead
    by_cases hbr : min tEnd sec.endParam ≥ tEnd
    · rw [if_pos hbr] at hok
      have hmin : min tEnd sec.endParam = tEnd := le_antisymm (min_le_left _ _) hbr
      have h := Except.ok.inj hok
      have hI : integral + (min tEnd sec.endParam - max tStart prevEnd) * s = I :=
        congrArg (fun p => p.2.2) h
      rw [hmin, hmax] at hI
      have hdt : 0 < tEnd - tStart := by linarith
      have hs0 : 0 < s := hspos (by rw [hmin, hmax]; linarith)
      have := mul_pos hdt hs0
      linarith
    · rw [if_neg hbr] at hok
      have hend : sec.endParam < tEnd := by
        by_contra hcon
        push_neg at hcon
        exact hbr (by rw [min_eq_left hcon])
      have hmin : min tEnd sec.endParam = sec.endParam :=
        min_eq_right (le_of_lt hend)
      have hrest_ne : rest ≠ [] := by
        intro hr
        subst hr
        have hone : (([sec] : List Section').getLast?).getD sec0 = sec := rfl
        rw [hone] at hlast
        linarith
      obtain ⟨r0, rest', rfl⟩ := List.exists_cons_of_ne_nil hrest_ne
      have hdt0 : 0 ≤ min tEnd sec.endParam - max tStart prevEnd := by
        rw [hmin, hmax]
        linarith
      have hcontrib : 0 ≤ (min tEnd sec.endParam - max tStart prevEnd) * s := by
        rcases lt_or_eq_of_le hdt0 with h | h
        · exact le_of_lt (mul_pos h (hspos h))
        · rw [← h, zero_mul]
      have hch := (List.chain'_cons.mp hchain)
      refine lt_of_le_of_lt (by linarith : integral
          ≤ integral + (min tEnd sec.endParam - max tStart prevEnd) * s) ?_
      refine ih _ _ _ _ _ _ _ _ hok ?_ ?_ ?_ ?_ (by simp) ?_ ?_
      · rw [hmin]
        exact hend
      · rw [hmin]
      · rw [hmin]
        exact le_of_lt hch.1
      · simpa using hlast
      · exact hch.2
      · intro s' hs' a b
        exact hquad s' (List.mem_cons_of_mem _ hs') a b

lemma caspLoop_last_exact (rule : List (ℝ × ℝ)) (tEnd sl : ℝ) (nSeg : ℕ)
    (hsl : 0 < sl) (hns : 1 ≤ nSeg) :
    ∀ (ss : List Section') (prevEnd tStart integral : ℝ) (out : List ℝ) (seg : ℕ)
      (out' : List ℝ) (seg' : ℕ) (I : ℝ),
      caspLoop rule tEnd sl nSeg ss prevEnd tStart integral out seg = .ok (out', seg', I) →
      I = (nSeg : ℝ) * sl →
      tStart < tEnd → prevEnd ≤ tStart →
      tStart ≤ (ss.headD sec0).endParam →
      tEnd ≤ ((ss.getLast?).getD sec0).endParam →
      ss ≠ [] →
      List.Chain' (· < ·) (ss.map Section'.endParam) →
      (∀ sec ∈ ss, ∀ a b : ℝ, ∃ s, secIntegralOf rule sec a b = .ok s ∧ (0 < b → 0 < s)) →
      out.length = nSeg →
      seg ≤ nSeg → (seg = 0 ∨ (seg : ℝ) * sl ≤ integral) →
      seg' = nSeg ∧ out'.length = nSeg ∧ out'.getD (nSeg - 1) 0 = tEnd := by
  intro ss
  induction ss with
  | nil =>
    intro prevEnd tStart integral out seg out' seg' I hok hI hlt hpe hhead hlast hne
      hchain hquad hlen hsegle hdisc
    exact absurd rfl hne
  | cons sec rest ih =>
    intro prevEnd tStart integral out seg out' seg' I hok hI hlt hpe hhead hlast hne
      hchain hquad hlen hsegle hdisc
    simp only [caspLoop] at hok
    obtain ⟨s, hs, hspos⟩ := hquad sec (List.mem_cons_self _ _) (max tStart prevEnd)
      (min tEnd sec.endParam - max tStart prevEnd)
    rw [hs] at hok
    dsimp only at hok
    have hmax : max tStart prevEnd = tStart := max_eq_left hpe
    have hheadc : tStart ≤ sec.endParam := by simpa using hhead
    by_cases hbr : min tEnd sec.endParam ≥ tEnd
    · rw [if_pos hbr] at hok
      have hminE : min tEnd sec.endParam = tEnd := le_antisymm (min_le_left _ _) hbr
      have h := Except.ok.inj hok
      simp only [Prod.mk.injEq] at h
      obtain ⟨ho1, ho2, hoI⟩ := h
      have hI3 : integral + (min tEnd sec.endParam - max tStart prevEnd) * s = I := hoI
      have hdtpos : 0 < min tEnd sec.endParam - max tStart prevEnd := by
        rw [hminE, hmax]
        linarith
      have hs0 : 0 < s := hspos hdtpos
      have hlt' : integral < I := by nlinarith
      have hseg_lt : seg < nSeg := by
        rcases hdisc with h0 | hle
        · omega
        · have hm : (seg : ℝ) * sl < (nSeg : ℝ) * sl := by
            rw [← hI]
            linarith
          have := lt_of_mul_lt_mul_right hm (le_of_lt hsl)
          exact_mod_cast this
      have hIv : integral + (min tEnd sec.endParam - max tStart prevEnd) * s
          = (nSeg : ℝ) * sl := by rw [hI3, hI]
      rw [hIv] at ho1 ho2
      obtain ⟨hf1, hf2, hf3⟩ := innerLoop_final sl tStart
        ((nSeg : ℝ) * sl - (min tEnd sec.endParam - max tStart prevEnd) * s) s nSeg hsl
        (nSeg + 1) out seg hseg_lt (by omega) hlen
      rw [ho1] at hf2 hf3
      rw [ho2] at hf1
      refine ⟨hf1, hf2, ?_⟩
      rw [hf3]
      rw [show (nSeg : ℝ) * sl
          - ((nSeg : ℝ) * sl - (min tEnd sec.endParam - max tStart prevEnd) * s)
          = (min tEnd sec.endParam - max tStart prevEnd) * s by ring]
      rw [mul_div_assoc, div_self (ne_of_gt hs0), mul_one, hminE, hmax]
      ring
    · rw [if_neg hbr] at hok
      have hend : sec.endParam < tEnd := by
        by_contra hcon
        push_neg at hcon
        exact hbr (by rw [min_eq_left hcon])
      have hminE : min tEnd sec.endParam = sec.endParam :=
        min_eq_right (le_of_lt hend)
      have hrest_ne : rest ≠ [] := by
        intro hr
        subst hr
        have hone : (([sec] : List Section').getLast?).getD sec0 = sec := rfl
        rw [hone] at hlast
        linarith
      obtain ⟨r0, rest', rfl⟩ := List.exists_cons_of_ne_nil hrest_ne
      have hdt0 : 0 ≤ min tEnd sec.endParam - max tStart prevEnd := by
        rw [hminE, hmax]
        linarith
      have hcontrib : 0 ≤ (min tEnd sec.endParam - max tStart prevEnd) * s := by
        rcases lt_or_eq_of_le hdt0 with h | h
        · exact le_of_lt (mul_pos h (hspos h))
        · rw [← h, zero_mul]
      have hch := List.chain'_cons.mp hchain
      obtain ⟨hil, hile, hild⟩ := innerLoop_invariant sl tStart
        (integral + (min tEnd sec.endParam - max tStart prevEnd) * s)
        (integral + (min tEnd sec.endParam - max tStart prevEnd) * s
          - (min tEnd sec.endParam - max tStart prevEnd) * s) s (nSeg + 1) out seg
      have hintlt : integral + (min tEnd sec.endParam - max tStart prevEnd) * s < I := by
        refine caspLoop_integral_lt rule tEnd sl nSeg _ _ _ _ _ _ _ _ _ hok ?_ ?_ ?_ ?_
          (by simp) ?_ ?_
        · rw [hminE]
          exact hend
        · rw [hminE]
        · rw [hminE]
          exact le_of_lt hch.1
        · simpa using hlast
        · exact hch.2
        · intro s' hs' a b
          exact hquad s' (List.mem_cons_of_mem _ hs') a b
      have hnewseg : (innerLoop sl tStart
            (integral + (min tEnd sec.endParam - max tStart prevEnd) * s)
            (integral + (min tEnd sec.endParam - max tStart prevEnd) * s
              - (min tEnd sec.endParam - max tStart prevEnd) * s) s (nSeg + 1) out seg).2
          ≤ nSeg
        ∧ ((innerLoop sl tStart
            (integral + (min tEnd sec.endParam - max tStart prevEnd) * s)
            (integral + (min tEnd sec.endParam - max tStart prevEnd) * s
              - (min tEnd sec.endParam - max tStart prevEnd) * s) s (nSeg + 1) out seg).2 = 0
          ∨ ((innerLoop sl tStart
            (integral + (min tEnd sec.endParam - max tStart prevEnd) * s)
            (integral + (min tEnd sec.endParam - max tStart prevEnd) * s
              - (min tEnd sec.endParam - max tStart prevEnd) * s) s (nSeg + 1) out seg).2 : ℝ)
              * sl ≤ integral + (min tEnd sec.endParam - max tStart prevEnd) * s) := by
        rcases hild with hd | hd
        · constructor
          · rw [hd]
            exact hsegle
          · rcases hdisc with h0 | hle
            · left
              rw [hd, h0]
            · right
              rw [hd]
              linarith
        · constructor
          · have hm : ((innerLoop sl tStart
                (integral + (min tEnd sec.endParam - max tStart prevEnd) * s)
                (integral + (min tEnd sec.endParam - max tStart prevEnd) * s
                  - (min tEnd sec.endParam - max tStart prevEnd) * s) s
                (nSeg + 1) out seg).2 : ℝ) * sl < (nSeg : ℝ) * sl := by
              rw [← hI]
              linarith
            have := lt_of_mul_lt_mul_right hm (le_of_lt hsl)
            have := le_of_lt (show (innerLoop sl tStart
                (integral + (min tEnd sec.endParam - max tStart prevEnd) * s)
                (integral + (min tEnd sec.endParam - max tStart prevEnd) * s
                  - (min tEnd sec.endParam - max tStart prevEnd) * s) s
                (nSeg + 1) out seg).2 < nSeg by exact_mod_cast this)
            exact this
          · right
            exact hd
      refine ih _ _ _ _ _ _ _ _ hok hI ?_ ?_ ?_ ?_ (by simp) ?_ ?_ ?_ ?_ ?_
      · rw [hminE]
        exact hend
      · rw [hminE]
      · rw [hminE]
        exact le_of_lt hch.1
      · simpa using hlast
      · exact hch.2
      · intro s' hs' a b
        exact hquad s' (List.mem_cons_of_mem _ hs') a b
      · rw [hil]
        exact hlen
      · exact hnewseg.1
      · exact hnewseg.2

lemma caspLoop_ok_of_lor (rule : List (ℝ × ℝ)) (tEnd sl : ℝ) (nSeg : ℕ) :
    ∀ (ss : List Section') (prevEnd tStart integral T : ℝ) (out : List ℝ) (seg : ℕ),
      lorLoop rule tEnd ss prevEnd tStart integral = .ok T →
      ∃ out' seg', caspLoop rule tEnd sl nSeg ss prevEnd tStart integral out seg
        = .ok (out', seg', T) := by
  intro ss
  induction ss with
  | nil =>
    intro prevEnd tStart integral T out seg hlor
    simp only [lorLoop] at hlor
    refine ⟨out, seg, ?_⟩
    simp only [caspLoop]
    rw [Except.ok.inj hlor]
  | cons sec rest ih =>
    intro prevEnd tStart integral T out seg hlor
    simp only [lorLoop] at hlor
    simp only [caspLoop]
    cases hsi : secIntegralOf rule sec (max tStart prevEnd)
        (min tEnd sec.endParam - max tStart prevEnd) with
    | error e =>
      rw [hsi] at hlor
      exact absurd hlor (by simp)
    | ok s =>
      rw [hsi] at hlor
      dsimp only at hlor ⊢
      by_cases hbr : min tEnd sec.endParam ≥ tEnd
      · rw [if_pos hbr] at hlor ⊢
        rw [← Except.ok.inj hlor]
        exact ⟨_, _, rfl⟩
      · rw [if_neg hbr] at hlor ⊢
        exact ih _ _ _ _ _ _ hlor

/-- C4: resampling a span `[t_start, t_end)` into `nSeg` equal sub-targets
of the length-over-radius integral (the caller's contract
`nSeg · segLength = lengthOverRadius`) produces a final axial sample equal
to `t_end` EXACTLY — in exact arithmetic the closing linear interpolation
already lands on `t_end`, and the coded rounding-correction branch
(`(nSeg*segLength - integral)/integral < 1e-6` with `seg+1 = nSeg`) exists
only to absorb floating-point shortfall.  Hypotheses: the section walk is
well-formed (sorted section ends covering `[t_start, t_end]`, correct
start-iterator), and each chunk's quadrature succeeds with a positive value
on positive width. -/
theorem C4_final_sample_equals_t_end
    (rule : List (ℝ × ℝ)) (nSeg startSec : ℕ) (tStart tEnd segLength : ℝ)
    (secs : List Section')
    (hsl : 0 < segLength) (hns : 1 ≤ nSeg)
    (hA : tStart ≤ (secs.getD startSec sec0).endParam)
    (hB : (if 0 < startSec then (secs.getD (startSec - 1) sec0).endParam else 0) ≤ tStart)
    (hlt : tStart < tEnd)
    (hlast : tEnd ≤ (((secs.drop startSec).getLast?).getD sec0).endParam)
    (hne : secs.drop startSec ≠ [])
    (hchain : List.Chain' (· < ·) ((secs.drop startSec).map Section'.endParam))
    (hquad : ∀ sec ∈ secs.drop startSec, ∀ a b : ℝ,
      ∃ s, secIntegralOf rule sec a b = .ok s ∧ (0 < b → 0 < s))
    (hlor : calculate_length_over_radius rule tStart tEnd secs startSec
      = .ok ((nSeg : ℝ) * segLength)) :
    ∃ out, calculate_segment_axial_positions rule nSeg tStart tEnd secs startSec segLength
        = .ok out ∧ out.length = nSeg ∧ out.getD (nSeg - 1) 0 = tEnd := by
  have hassert : ¬ ((secs.getD startSec sec0).endParam < tStart
      ∨ (if 0 < startSec then (secs.getD (startSec - 1) sec0).endParam else 0) > tStart) := by
    push_neg
    exact ⟨hA, hB⟩
  rw [calculate_length_over_radius] at hlor
  rw [if_neg hassert] at hlor
  obtain ⟨out1, seg1, hcl⟩ := caspLoop_ok_of_lor rule tEnd segLength nSeg
    (secs.drop startSec) _ tStart 0 _ (List.replicate nSeg 0) 0 hlor
  have hhead : tStart ≤ ((secs.drop startSec).headD sec0).endParam := by
    have hh : (secs.drop startSec).headD sec0 = secs.getD startSec sec0 := by
      rw [List.headD_eq_head?, List.head?_drop, List.getD_eq_getElem?_getD]
    rw [hh]
    exact hA
  obtain ⟨hseg, hlen, hgetD⟩ := caspLoop_last_exact rule tEnd segLength nSeg hsl hns
    (secs.drop startSec) _ tStart 0 (List.replicate nSeg 0) 0 out1 seg1 _ hcl rfl
    hlt hB hhead hlast hne hchain hquad (List.length_replicate _ _) (by omega) (Or.inl rfl)
  refine ⟨out1, ?_, hlen, hgetD⟩
  rw [calculate_segment_axial_positions, if_neg hassert, hcl]
  dsimp only
  rw [if_neg ?_]
  intro hcontr
  exact absurd hcontr.1 (by omega)

/-- Witness for C4 on the unit section with constant unit speed and
radius 1, midpoint quadrature, one segment. -/
theorem C4_witness :
    ∃ out, calculate_segment_axial_positions [(1/2, 1)] 1 0 1 [exPSec] 0 1 = .ok out
      ∧ out.length = 1 ∧ out.getD 0 0 = 1 := by
  have hsec1 : ∀ a b : ℝ, secIntegralOf [(1/2, 1)] exPSec a b = .ok 1 := by
    intro a b
    rw [secIntegralOf, secIntegralOf.go]
    norm_num [velVec, velAt, polyAt, vecNormSquared, exPSec, Real.sqrt_one,
      secIntegralOf.go]
  have hlor1 : calculate_length_over_radius [(1/2, 1)] 0 1 [exPSec] 0
      = .ok (((1 : ℕ) : ℝ) * 1) := by
    rw [calculate_length_over_radius, if_neg (by norm_num [exPSec])]
    rw [show ([exPSec].drop 0) = [exPSec] from rfl]
    rw [lorLoop, hsec1]
    dsimp only
    rw [if_pos (by norm_num [exPSec])]
    norm_num [exPSec]
  have h := C4_final_sample_equals_t_end [(1/2, 1)] 1 0 0 1 1 [exPSec]
    (by norm_num) (by norm_num)
    (by norm_num [exPSec]) (by norm_num) (by norm_num)
    (by norm_num [exPSec]) (by norm_num)
    (by simp)
    (by
      intro sec hsec a b
      have hs : sec = exPSec := by simpa using hsec
      subst hs
      exact ⟨1, hsec1 a b, fun _ => one_pos⟩)
    hlor1
  simpa using h

end NeuroCollection
